import Mathlib

/-!
Verification of the UPPE propagation programs `ffdmk_2d1_adi2.py` (ADI variant)
and `ffdmk_2d1_fcn.py` (spectral FCN variant).

The floating-point complex arithmetic of the programs is embedded exactly:
structural and operator claims are settled over `Cq` (complex numbers with
rational components, fully computable), and the spectral (Fourier) half-step
of the FCN variant is embedded over `ℂ` since it involves the transcendental
exponential.  Tridiagonal sparse solves (`scipy.sparse.linalg.spsolve` on the
tridiagonal Crank-Nicolson systems) are embedded as the direct tridiagonal
factorization (Thomas algorithm), the unique-solution contract of the spec.
-/

open Complex

unseal Rat.add Rat.mul Rat.inv Rat.sub

/-- Complex numbers with rational real and imaginary components, an exact
embedding of the complex double arithmetic used by both programs. -/
@[ext]
structure Cq where
  re : ℚ
  im : ℚ
deriving DecidableEq, Repr

namespace Cq

instance : Zero Cq := ⟨⟨0, 0⟩⟩

instance : One Cq := ⟨⟨1, 0⟩⟩

instance : Add Cq := ⟨fun a b => ⟨a.re + b.re, a.im + b.im⟩⟩

instance : Neg Cq := ⟨fun a => ⟨-a.re, -a.im⟩⟩

instance : Sub Cq := ⟨fun a b => ⟨a.re - b.re, a.im - b.im⟩⟩

instance : Mul Cq := ⟨fun a b => ⟨a.re * b.re - a.im * b.im, a.re * b.im + a.im * b.re⟩⟩

/-- Complex division `a / b = a * conj b / |b|^2`; division by zero yields zero
(the components divide by `0` in `ℚ`). -/
instance : Div Cq :=
  ⟨fun a b =>
    ⟨(a.re * b.re + a.im * b.im) / (b.re * b.re + b.im * b.im),
     (a.im * b.re - a.re * b.im) / (b.re * b.re + b.im * b.im)⟩⟩

@[simp] theorem zero_re : (0 : Cq).re = 0 := rfl

@[simp] theorem zero_im : (0 : Cq).im = 0 := rfl

@[simp] theorem one_re : (1 : Cq).re = 1 := rfl

@[simp] theorem one_im : (1 : Cq).im = 0 := rfl

@[simp] theorem add_re (a b : Cq) : (a + b).re = a.re + b.re := rfl

@[simp] theorem add_im (a b : Cq) : (a + b).im = a.im + b.im := rfl

@[simp] theorem neg_re (a : Cq) : (-a).re = -a.re := rfl

@[simp] theorem neg_im (a : Cq) : (-a).im = -a.im := rfl

@[simp] theorem sub_re (a b : Cq) : (a - b).re = a.re - b.re := rfl

@[simp] theorem sub_im (a b : Cq) : (a - b).im = a.im - b.im := rfl

@[simp] theorem mul_re (a b : Cq) : (a * b).re = a.re * b.re - a.im * b.im := rfl

@[simp] theorem mul_im (a b : Cq) : (a * b).im = a.re * b.im + a.im * b.re := rfl

@[simp] theorem div_re (a b : Cq) :
    (a / b).re = (a.re * b.re + a.im * b.im) / (b.re * b.re + b.im * b.im) := rfl

@[simp] theorem div_im (a b : Cq) :
    (a / b).im = (a.im * b.re - a.re * b.im) / (b.re * b.re + b.im * b.im) := rfl

instance : CommRing Cq where
  nsmul := nsmulRec
  zsmul := zsmulRec
  natCast n := ⟨n, 0⟩
  natCast_zero := by ext <;> simp
  natCast_succ n := by ext <;> simp
  add_assoc a b c := by ext <;> simp <;> ring
  zero_add a := by ext <;> simp
  add_zero a := by ext <;> simp
  add_comm a b := by ext <;> simp <;> ring
  mul_assoc a b c := by ext <;> simp <;> ring
  one_mul a := by ext <;> simp
  mul_one a := by ext <;> simp
  left_distrib a b c := by ext <;> simp <;> ring
  right_distrib a b c := by ext <;> simp <;> ring
  zero_mul a := by ext <;> simp
  mul_zero a := by ext <;> simp
  mul_comm a b := by ext <;> simp <;> ring
  neg_add_cancel a := by ext <;> simp
  sub_eq_add_neg a b := by ext <;> simp <;> ring

/-- Embeds a real (rational) scalar of the programs into `Cq`. -/
def qc (q : ℚ) : Cq := ⟨q, 0⟩

@[simp] theorem qc_re (q : ℚ) : (qc q).re = q := rfl

@[simp] theorem qc_im (q : ℚ) : (qc q).im = 0 := rfl

@[simp] theorem qc_zero : qc 0 = 0 := rfl

@[simp] theorem qc_one : qc 1 = 1 := rfl

/-- The squared modulus `np.abs(z) ** 2` of an exactly-represented complex
value; a rational, since the modulus itself is squared away. -/
def absSq (z : Cq) : ℚ := z.re * z.re + z.im * z.im

@[simp] theorem absSq_zero : absSq 0 = 0 := by simp [absSq]

@[simp] theorem natCast_re (n : ℕ) : ((n : Cq)).re = n := rfl

@[simp] theorem natCast_im (n : ℕ) : ((n : Cq)).im = 0 := rfl

@[simp] theorem ofNat_re (n : ℕ) [n.AtLeastTwo] : (OfNat.ofNat n : Cq).re = OfNat.ofNat n := rfl

@[simp] theorem ofNat_im (n : ℕ) [n.AtLeastTwo] : (OfNat.ofNat n : Cq).im = 0 := rfl

end Cq

export Cq (qc absSq)

/-- Position tag of a Crank-Nicolson array, the `pos` string parameter of the
builders (`"LEFT"` for the implicit operator, `"RIGHT"` for the explicit one). -/
inductive CnPos
  | LEFT
  | RIGHT
deriving DecidableEq, Repr

/-- Embedding of `crank_nicolson_diags_r` from `ffdmk_2d1_adi2.py` (lines
76-109); the identical function appears as `crank_nicolson_diags` in
`ffdmk_2d1_fcn.py`.  Returns the `(diag_m1, diag_0, diag_p1)` triple as index
functions: `diag_m1 j` is the entry at row `j+1`, column `j` (numpy offset
`-1` diagonal, length `n-1`, built over interior indices `ind = 1..n-2` and
then a `0` appended), `diag_0 j` the main diagonal, and `diag_p1 j` the entry
at row `j`, column `j+1` (offset `+1`, a `0` inserted in front).  The
subsequent `if/elif` chain on `(coor, pos)` overrides the boundary entries
exactly as in the source. -/
def crank_nicolson_diags_r (n : ℕ) (pos : CnPos) (coor : ℕ) (coef : Cq) :
    (ℕ → Cq) × (ℕ → Cq) × (ℕ → Cq) :=
  let mcf : Cq := 1 + 2 * coef
  let diag_m1 : ℕ → Cq := fun j =>
    if j < n - 2 then -coef * qc (1 - (coor : ℚ) / (2 * (j + 1))) else 0
  let diag_0 : ℕ → Cq := fun _ => mcf
  let diag_p1 : ℕ → Cq := fun j =>
    if 1 ≤ j ∧ j < n - 1 then -coef * qc (1 + (coor : ℚ) / (2 * j)) else 0
  if coor = 0 ∧ pos = CnPos.LEFT then
    (diag_m1, fun j => if j = 0 then 1 else if j = n - 1 then 1 else diag_0 j, diag_p1)
  else if coor = 0 ∧ pos = CnPos.RIGHT then
    (diag_m1, fun j => if j = 0 then 0 else if j = n - 1 then 0 else diag_0 j, diag_p1)
  else if coor = 1 ∧ pos = CnPos.LEFT then
    (diag_m1, fun j => if j = 0 then mcf else if j = n - 1 then 1 else diag_0 j,
      fun j => if j = 0 then -(2 * coef) else diag_p1 j)
  else if coor = 1 ∧ pos = CnPos.RIGHT then
    (diag_m1, fun j => if j = 0 then mcf else if j = n - 1 then 0 else diag_0 j,
      fun j => if j = 0 then -(2 * coef) else diag_p1 j)
  else (diag_m1, diag_0, diag_p1)

/-- Embedding of `crank_nicolson_diags_t` from `ffdmk_2d1_adi2.py` (lines
112-136): constant off-diagonals `-coef` with `diag_p1[0]` and `diag_m1[-1]`
zeroed, and Dirichlet (`LEFT`) or zeroed (`RIGHT`) first/last main-diagonal
entries. -/
def crank_nicolson_diags_t (n : ℕ) (pos : CnPos) (coef : Cq) :
    (ℕ → Cq) × (ℕ → Cq) × (ℕ → Cq) :=
  let mcf : Cq := 1 + 2 * coef
  let diag_m1 : ℕ → Cq := fun j => if j < n - 2 then -coef else 0
  let diag_p1 : ℕ → Cq := fun j => if 1 ≤ j ∧ j < n - 1 then -coef else 0
  let diag_0 : ℕ → Cq := fun j =>
    if j = 0 then (if pos = CnPos.LEFT then 1 else 0)
    else if j = n - 1 then (if pos = CnPos.LEFT then 1 else 0)
    else mcf
  (diag_m1, diag_0, diag_p1)

/-- Product of the tridiagonal array described by the diagonal triple with a
vector, the `cn_array @ v` matrix-vector products of the propagation loops
(the CSR array assembled by `diags_array` with offsets `[-1, 0, 1]`). -/
def tri_matvec (n : ℕ) (dg : (ℕ → Cq) × (ℕ → Cq) × (ℕ → Cq)) (v : Fin n → Cq) :
    Fin n → Cq := fun i =>
  (if 1 ≤ (i : ℕ) then
      dg.1 ((i : ℕ) - 1) * v ⟨(i : ℕ) - 1, lt_of_le_of_lt (Nat.sub_le _ _) i.isLt⟩
    else 0) +
  dg.2.1 (i : ℕ) * v i +
  (if h : (i : ℕ) + 1 < n then dg.2.2 (i : ℕ) * v ⟨(i : ℕ) + 1, h⟩ else 0)

/-- Forward sweep of the direct tridiagonal factorization (Thomas algorithm):
`(thomas_fwd m1 d0 p1 rhs i)` is the pair of the modified upper-diagonal and
right-hand-side coefficients at row `i`. -/
def thomas_fwd (m1 d0 p1 rhs : ℕ → Cq) : ℕ → Cq × Cq
  | 0 => (p1 0 / d0 0, rhs 0 / d0 0)
  | i + 1 =>
    let prev := thomas_fwd m1 d0 p1 rhs i
    let den := d0 (i + 1) - m1 i * prev.1
    (p1 (i + 1) / den, (rhs (i + 1) - m1 i * prev.2) / den)

/-- Back substitution of the Thomas algorithm: `thomas_back n cd j` is the
solution entry at row `n - 1 - j`. -/
def thomas_back (n : ℕ) (cd : ℕ → Cq × Cq) : ℕ → Cq
  | 0 => (cd (n - 1)).2
  | j + 1 => (cd (n - 1 - (j + 1))).2 - (cd (n - 1 - (j + 1))).1 * thomas_back n cd j

/-- Embedding of `spsolve` on the tridiagonal Crank-Nicolson systems: the
direct tridiagonal factorization returning the unique solution of
`A x = rhs` for the well-posed operators of the builders (spec 4.2). -/
def thomas (n : ℕ) (dg : (ℕ → Cq) × (ℕ → Cq) × (ℕ → Cq)) (rhs : Fin n → Cq) :
    Fin n → Cq := fun i =>
  thomas_back n (thomas_fwd dg.1 dg.2.1 dg.2.2
    (fun j => if h : j < n then rhs ⟨j, h⟩ else 0)) (n - 1 - (i : ℕ))


/-- Configuration of the propagation engine of `ffdmk_2d1_adi2.py`: grid node
counts, geometry flag `EU_CYL`, axis node index, the Crank-Nicolson matrix
coefficients `MAT_CNT_1R = i*DELTA_R` and `MAT_CNT_1T = i*DELTA_T`, the
propagation step length `DIST_STEP_LEN`, and the medium coefficients
`KERR_COEF`, `MPA_COEF`, `N_PHOTONS`.  The engine is embedded parametrically
over these configuration inputs (spec section 6); the source fixes one
concrete value for each, derived from the constant tables that the spec puts
out of scope. -/
structure AdiCfg where
  nr : ℕ
  nt : ℕ
  coor : ℕ
  axis_node : ℕ
  axis_lt : axis_node < nr
  mat_cnt_1r : Cq
  mat_cnt_1t : Cq
  dist_step_len : ℚ
  kerr_coef : Cq
  mpa_coef : Cq
  n_photons : ℕ

/-- The on-axis radial index `AXIS_NODE` as an index into the grid. -/
def AdiCfg.axis (c : AdiCfg) : Fin c.nr := ⟨c.axis_node, c.axis_lt⟩

/-- `left_cn_matrix_r` (source line 282). -/
def AdiCfg.left_cn_matrix_r (c : AdiCfg) : (ℕ → Cq) × (ℕ → Cq) × (ℕ → Cq) :=
  crank_nicolson_diags_r c.nr CnPos.LEFT c.coor c.mat_cnt_1r

/-- `right_cn_matrix_r` (source line 283), built with the negated coefficient. -/
def AdiCfg.right_cn_matrix_r (c : AdiCfg) : (ℕ → Cq) × (ℕ → Cq) × (ℕ → Cq) :=
  crank_nicolson_diags_r c.nr CnPos.RIGHT c.coor (-c.mat_cnt_1r)

/-- `left_cn_matrix_t` (source line 284). -/
def AdiCfg.left_cn_matrix_t (c : AdiCfg) : (ℕ → Cq) × (ℕ → Cq) × (ℕ → Cq) :=
  crank_nicolson_diags_t c.nt CnPos.LEFT c.mat_cnt_1t

/-- `right_cn_matrix_t` (source line 285), built with the negated coefficient. -/
def AdiCfg.right_cn_matrix_t (c : AdiCfg) : (ℕ → Cq) × (ℕ → Cq) × (ℕ → Cq) :=
  crank_nicolson_diags_t c.nt CnPos.RIGHT (-c.mat_cnt_1t)

/-- The nonlinear source evaluation (spec 4.3) appearing inline six times in
`ffdmk_2d1_adi2.py` and three times in `ffdmk_2d1_fcn.py`:
`DIST_STEP_LEN * (KERR_COEF * |E|^2 + MPA_COEF * |E|^MPA_EXP) * E`.  Since
`MPA_EXP = 2*N_PHOTONS - 2` is even, `np.abs(E) ** MPA_EXP` equals
`(absSq E) ^ (N_PHOTONS - 1)` exactly. -/
def nl_source (dz : ℚ) (kerr mpa : Cq) (kphot : ℕ) (z : Cq) : Cq :=
  qc dz * (kerr * qc (absSq z) + mpa * qc (absSq z ^ (kphot - 1))) * z

/-- The nonlinear source with the configured coefficients. -/
def AdiCfg.nl (c : AdiCfg) (z : Cq) : Cq :=
  nl_source c.dist_step_len c.kerr_coef c.mpa_coef c.n_photons z

/-- The bootstrap scaling `G = 1.0` of the AB2 start-up branch. -/
def boot_G : ℚ := 1

/-- Mutable state of the ADI propagation loop: the field `envelope`, the
carried old nonlinear-source generation `w_array[:, :, 0]`, and the on-axis
trace `envelope_axis`. -/
structure AdiState (c : AdiCfg) where
  envelope : Fin c.nr → Fin c.nt → Cq
  w0 : Fin c.nr → Fin c.nt → Cq
  envelope_axis : ℕ → Fin c.nt → Cq

/-- First half-step right-hand sides `b_array[i, :] = right_cn_matrix_t @
envelope[i, :]` (source line 297). -/
def adi_b1 (c : AdiCfg) (env : Fin c.nr → Fin c.nt → Cq) : Fin c.nr → Fin c.nt → Cq :=
  fun i => tri_matvec c.nt c.right_cn_matrix_t (env i)

/-- The pair (`w_array[:, l, 0]`, `w_array[:, l, 1]`) as read by the first
half-step at iteration `k` (source lines 304-334): at `k = 0` the bootstrap
evaluates the old generation from the field and the new generation from the
field rescaled by `G = 1.0`; at `k > 0` the old generation is the carried
history and only the new generation is evaluated. -/
def adi_w_first (c : AdiCfg) (k : ℕ) (w0prev env : Fin c.nr → Fin c.nt → Cq) :
    (Fin c.nr → Fin c.nt → Cq) × (Fin c.nr → Fin c.nt → Cq) :=
  if k = 0 then
    (fun i l => c.nl (env i l), fun i l => c.nl (qc boot_G * env i l))
  else
    (w0prev, fun i l => c.nl (env i l))

/-- First half-step `f_array` (source line 337):
`b_array + 0.25 * (3 * w_array[:, l, 1] - w_array[:, l, 0])`. -/
def adi_f1 (c : AdiCfg) (k : ℕ) (s : AdiState c) : Fin c.nr → Fin c.nt → Cq :=
  fun i l =>
    adi_b1 c s.envelope i l +
      qc (1/4) * (3 * (adi_w_first c k s.w0 s.envelope).2 i l -
        (adi_w_first c k s.w0 s.envelope).1 i l)

/-- First half-step solutions `c_array[:, l] = spsolve(left_cn_matrix_r,
f_array[:, l])` (source line 340). -/
def adi_c_mid (c : AdiCfg) (k : ℕ) (s : AdiState c) : Fin c.nr → Fin c.nt → Cq :=
  fun i l => thomas c.nr c.left_cn_matrix_r (fun i2 => adi_f1 c k s i2 l) i

/-- Second half-step right-hand sides `b_array[:, l] = right_cn_matrix_r @
c_array[:, l]` (source line 348). -/
def adi_b2 (c : AdiCfg) (k : ℕ) (s : AdiState c) : Fin c.nr → Fin c.nt → Cq :=
  fun i l => tri_matvec c.nr c.right_cn_matrix_r (fun i2 => adi_c_mid c k s i2 l) i

/-- The pair (`w_array[i, :, 0]`, `w_array[i, :, 1]`) as read by the second
half-step at iteration `k`, after the rotation `w_array[:, :, 0] =
w_array[:, :, 1]` of line 343 has set both generations to the first
half-step's fresh evaluation `w1first`.  At `k = 0` the branch (lines
355-369) assigns a fresh evaluation of the intermediate field to
`w_array[i, :, 0]` and never reassigns `w_array[i, :, 1]`; at `k > 0` the
fresh evaluation goes to `w_array[i, :, 1]`. -/
def adi_w_second (c : AdiCfg) (k : ℕ) (w1first cmid : Fin c.nr → Fin c.nt → Cq) :
    (Fin c.nr → Fin c.nt → Cq) × (Fin c.nr → Fin c.nt → Cq) :=
  if k = 0 then
    (fun i l => c.nl (cmid i l), w1first)
  else
    (w1first, fun i l => c.nl (cmid i l))

/-- Second half-step `f_array` (source line 381). -/
def adi_f2 (c : AdiCfg) (k : ℕ) (s : AdiState c) : Fin c.nr → Fin c.nt → Cq :=
  fun i l =>
    adi_b2 c k s i l +
      qc (1/4) *
        (3 * (adi_w_second c k (adi_w_first c k s.w0 s.envelope).2 (adi_c_mid c k s)).2 i l -
          (adi_w_second c k (adi_w_first c k s.w0 s.envelope).2 (adi_c_mid c k s)).1 i l)

/-- Second half-step solutions `envelope_store[i, :] =
spsolve(left_cn_matrix_t, f_array[i, :])` (source line 384). -/
def adi_store (c : AdiCfg) (k : ℕ) (s : AdiState c) : Fin c.nr → Fin c.nt → Cq :=
  fun i => thomas c.nt c.left_cn_matrix_t (adi_f2 c k s i)

/-- One iteration of the ADI propagation loop (source lines 293-389),
including the trace writes in program order: at `k = 0` row `k+1` is written
from the rescaled field (line 325) and from the rescaled intermediate field
(line 369) before the final write from `envelope_store` (line 389); the last
write wins.  The ending `w_array[:, :, 0] = w_array[:, :, 1]` rotation (line
387) copies whatever the second half-step left in the new generation. -/
def adi_body (c : AdiCfg) (k : ℕ) (s : AdiState c) : AdiState c :=
  let w1first := (adi_w_first c k s.w0 s.envelope).2
  let cmid := adi_c_mid c k s
  let store := adi_store c k s
  let t1 := if k = 0 then
      Function.update s.envelope_axis (k + 1) (fun l => qc boot_G * s.envelope c.axis l)
    else s.envelope_axis
  let t2 := if k = 0 then
      Function.update t1 (k + 1) (fun l => qc boot_G * cmid c.axis l)
    else t1
  { envelope := store
    w0 := (adi_w_second c k w1first cmid).2
    envelope_axis := Function.update t2 (k + 1) (fun l => store c.axis l) }

/-- Initial loop state (source lines 288-290): the envelope holds the initial
condition, the scratch history and trace buffers are uninitialized
(`np.empty`, hence arbitrary parameters here), and trace row 0 is set to the
initial axis slice. -/
def adi_init (c : AdiCfg) (env0 w_init : Fin c.nr → Fin c.nt → Cq)
    (t_init : ℕ → Fin c.nt → Cq) : AdiState c :=
  { envelope := env0
    w0 := w_init
    envelope_axis := Function.update t_init 0 (fun l => env0 c.axis l) }

/-- State after the first `m` iterations of the ADI loop body (the field of
the result is the field after `m` completed propagation steps). -/
def adi_steps (c : AdiCfg) (m : ℕ) (s : AdiState c) : AdiState c :=
  match m with
  | 0 => s
  | m + 1 => adi_body c m (adi_steps c m s)

/-- The full ADI propagation loop `for k in tqdm(range(N_STEPS))` (line 293). -/
def adi_run (c : AdiCfg) (n_steps : ℕ) (s : AdiState c) : AdiState c :=
  (List.range n_steps).foldl (fun s2 k => adi_body c k s2) s

/-- Embedding of `crank_nicolson_diags` from `ffdmk_2d1_fcn.py` (lines
77-110), textually identical to `crank_nicolson_diags_r` of the ADI program,
over `ℂ` for the spectral variant's model. -/
noncomputable def crank_nicolson_diags (n : ℕ) (pos : CnPos) (coor : ℕ) (coef : ℂ) :
    (ℕ → ℂ) × (ℕ → ℂ) × (ℕ → ℂ) :=
  let mcf : ℂ := 1 + 2 * coef
  let diag_m1 : ℕ → ℂ := fun j =>
    if j < n - 2 then -coef * (1 - (coor : ℂ) / (2 * ((j : ℂ) + 1))) else 0
  let diag_0 : ℕ → ℂ := fun _ => mcf
  let diag_p1 : ℕ → ℂ := fun j =>
    if 1 ≤ j ∧ j < n - 1 then -coef * (1 + (coor : ℂ) / (2 * (j : ℂ))) else 0
  if coor = 0 ∧ pos = CnPos.LEFT then
    (diag_m1, fun j => if j = 0 then 1 else if j = n - 1 then 1 else diag_0 j, diag_p1)
  else if coor = 0 ∧ pos = CnPos.RIGHT then
    (diag_m1, fun j => if j = 0 then 0 else if j = n - 1 then 0 else diag_0 j, diag_p1)
  else if coor = 1 ∧ pos = CnPos.LEFT then
    (diag_m1, fun j => if j = 0 then mcf else if j = n - 1 then 1 else diag_0 j,
      fun j => if j = 0 then -(2 * coef) else diag_p1 j)
  else if coor = 1 ∧ pos = CnPos.RIGHT then
    (diag_m1, fun j => if j = 0 then mcf else if j = n - 1 then 0 else diag_0 j,
      fun j => if j = 0 then -(2 * coef) else diag_p1 j)
  else (diag_m1, diag_0, diag_p1)

/-- Tridiagonal matrix-vector product over `ℂ` (the `right_cn_matrix @ v`
products of the spectral variant). -/
noncomputable def tri_matvec_c (n : ℕ) (dg : (ℕ → ℂ) × (ℕ → ℂ) × (ℕ → ℂ))
    (v : Fin n → ℂ) : Fin n → ℂ := fun i =>
  (if 1 ≤ (i : ℕ) then
      dg.1 ((i : ℕ) - 1) * v ⟨(i : ℕ) - 1, lt_of_le_of_lt (Nat.sub_le _ _) i.isLt⟩
    else 0) +
  dg.2.1 (i : ℕ) * v i +
  (if h : (i : ℕ) + 1 < n then dg.2.2 (i : ℕ) * v ⟨(i : ℕ) + 1, h⟩ else 0)

/-- Forward sweep of the Thomas algorithm over `ℂ`. -/
noncomputable def thomas_fwd_c (m1 d0 p1 rhs : ℕ → ℂ) : ℕ → ℂ × ℂ
  | 0 => (p1 0 / d0 0, rhs 0 / d0 0)
  | i + 1 =>
    let prev := thomas_fwd_c m1 d0 p1 rhs i
    let den := d0 (i + 1) - m1 i * prev.1
    (p1 (i + 1) / den, (rhs (i + 1) - m1 i * prev.2) / den)

/-- Back substitution of the Thomas algorithm over `ℂ`. -/
noncomputable def thomas_back_c (n : ℕ) (cd : ℕ → ℂ × ℂ) : ℕ → ℂ
  | 0 => (cd (n - 1)).2
  | j + 1 => (cd (n - 1 - (j + 1))).2 - (cd (n - 1 - (j + 1))).1 * thomas_back_c n cd j

/-- Embedding of `spsolve` on the spectral variant's tridiagonal system. -/
noncomputable def thomas_c (n : ℕ) (dg : (ℕ → ℂ) × (ℕ → ℂ) × (ℕ → ℂ))
    (rhs : Fin n → ℂ) : Fin n → ℂ := fun i =>
  thomas_back_c n (thomas_fwd_c dg.1 dg.2.1 dg.2.2
    (fun j => if h : j < n then rhs ⟨j, h⟩ else 0)) (n - 1 - (i : ℕ))

/-- The discrete Fourier transform `numpy.fft.fft`:
`X_k = sum_l x_l exp(-2*pi*i*k*l/n)`. -/
noncomputable def dft (n : ℕ) (x : Fin n → ℂ) : Fin n → ℂ := fun k =>
  ∑ l : Fin n, x l * Complex.exp (-(2 * Real.pi * Complex.I * ((k : ℕ) : ℂ) * ((l : ℕ) : ℂ)) / n)

/-- The inverse transform `numpy.fft.ifft`:
`x_l = (1/n) sum_k X_k exp(2*pi*i*k*l/n)`. -/
noncomputable def idft (n : ℕ) (y : Fin n → ℂ) : Fin n → ℂ := fun l =>
  (∑ k : Fin n, y k * Complex.exp (2 * Real.pi * Complex.I * ((k : ℕ) : ℂ) * ((l : ℕ) : ℂ) / n)) / n

/-- Configuration of the propagation engine of `ffdmk_2d1_fcn.py`, analogous
to `AdiCfg`, with the additional dispersion data used by the precomputed
spectral factor: `DELTA_T`, `TIME_STEP_LEN` and the frequency axis
`frq_array` (all real valued). -/
structure FcnCfg where
  nr : ℕ
  nt : ℕ
  coor : ℕ
  axis_node : ℕ
  axis_lt : axis_node < nr
  matrix_cnt_1 : ℂ
  dist_step_len : ℝ
  kerr_coef : ℂ
  mpa_coef : ℂ
  n_photons : ℕ
  delta_t : ℝ
  time_step_len : ℝ
  frq : Fin nt → ℝ

/-- The on-axis radial index as an index into the grid. -/
def FcnCfg.axis (c : FcnCfg) : Fin c.nr := ⟨c.axis_node, c.axis_lt⟩

/-- `left_cn_matrix` (source line 245). -/
noncomputable def FcnCfg.left_cn_matrix (c : FcnCfg) : (ℕ → ℂ) × (ℕ → ℂ) × (ℕ → ℂ) :=
  crank_nicolson_diags c.nr CnPos.LEFT c.coor c.matrix_cnt_1

/-- `right_cn_matrix` (source line 246), built with the negated coefficient. -/
noncomputable def FcnCfg.right_cn_matrix (c : FcnCfg) : (ℕ → ℂ) × (ℕ → ℂ) × (ℕ → ℂ) :=
  crank_nicolson_diags c.nr CnPos.RIGHT c.coor (-c.matrix_cnt_1)

/-- The precomputed per-frequency dispersion factor (source line 236):
`fourier_coeff = np.exp(-2 * 1j * DELTA_T * (frq_array * TIME_STEP_LEN) ** 2)`. -/
noncomputable def fourier_coeff (c : FcnCfg) : Fin c.nt → ℂ := fun k =>
  Complex.exp (-2 * Complex.I * (c.delta_t : ℂ) * (((c.frq k : ℂ)) * (c.time_step_len : ℂ)) ^ 2)

/-- The per-line spectral half-step of the propagation loop (source lines
257-259): forward transform, elementwise multiplication by the precomputed
factor, inverse transform. -/
noncomputable def fcn_spectral_line (n : ℕ) (coeff : Fin n → ℂ) (x : Fin n → ℂ) : Fin n → ℂ :=
  idft n (fun k => coeff k * dft n x k)

/-- The nonlinear source evaluation of the spectral variant, over `ℂ`
(`DIST_STEP_LEN * (KERR_COEF * |E|^2 + MPA_COEF * |E|^MPA_EXP) * E`, with the
even exponent `MPA_EXP = 2*N_PHOTONS - 2` written as a power of the squared
modulus). -/
noncomputable def nl_source_c (dz : ℝ) (kerr mpa : ℂ) (kphot : ℕ) (z : ℂ) : ℂ :=
  (dz : ℂ) * (kerr * (Complex.normSq z : ℂ) + mpa * ((Complex.normSq z ^ (kphot - 1) : ℝ) : ℂ)) * z

/-- The nonlinear source with the configured coefficients. -/
noncomputable def FcnCfg.nl (c : FcnCfg) (z : ℂ) : ℂ :=
  nl_source_c c.dist_step_len c.kerr_coef c.mpa_coef c.n_photons z

/-- Mutable state of the spectral propagation loop. -/
structure FcnState (c : FcnCfg) where
  envelope : Fin c.nr → Fin c.nt → ℂ
  w0 : Fin c.nr → Fin c.nt → ℂ
  envelope_axis : ℕ → Fin c.nt → ℂ

/-- Spectral half-step output `b_array[i, :] = ifft(fourier_coeff *
fft(envelope[i, :]))` (source lines 256-259). -/
noncomputable def fcn_b (c : FcnCfg) (env : Fin c.nr → Fin c.nt → ℂ) :
    Fin c.nr → Fin c.nt → ℂ :=
  fun i => fcn_spectral_line c.nt (fourier_coeff c) (env i)

/-- `c_array[:, l, 0]` as it stands after the bootstrap branch: at `k = 0` the
field is rescaled by `G = 1.0` (source line 276) before the implicit solve
reads it; at `k > 0` it is the spectral half-step output unchanged. -/
noncomputable def fcn_c0 (c : FcnCfg) (k : ℕ) (b : Fin c.nr → Fin c.nt → ℂ) :
    Fin c.nr → Fin c.nt → ℂ :=
  if k = 0 then fun i l => ((boot_G : ℚ) : ℂ) * b i l else b

/-- The pair (`w_array[:, l, 0]`, `w_array[:, l, 1]`) read by the implicit
solve at iteration `k` (source lines 266-296): at `k = 0` the old generation
is evaluated from the spectral output and the new generation from the
`G`-rescaled field; at `k > 0` the old generation is the carried history. -/
noncomputable def fcn_w (c : FcnCfg) (k : ℕ) (w0prev b : Fin c.nr → Fin c.nt → ℂ) :
    (Fin c.nr → Fin c.nt → ℂ) × (Fin c.nr → Fin c.nt → ℂ) :=
  if k = 0 then
    (fun i l => c.nl (b i l), fun i l => c.nl (fcn_c0 c k b i l))
  else
    (w0prev, fun i l => c.nl (b i l))

/-- `d_array = right_cn_matrix @ c_array[:, l, 0]` (source line 299). -/
noncomputable def fcn_d (c : FcnCfg) (k : ℕ) (b : Fin c.nr → Fin c.nt → ℂ) :
    Fin c.nr → Fin c.nt → ℂ :=
  fun i l => tri_matvec_c c.nr c.right_cn_matrix (fun i2 => fcn_c0 c k b i2 l) i

/-- `f_array = d_array + 0.5 * (3 * w_array[:, l, 1] - w_array[:, l, 0])`
(source line 300). -/
noncomputable def fcn_f (c : FcnCfg) (k : ℕ) (s : FcnState c) : Fin c.nr → Fin c.nt → ℂ :=
  fun i l =>
    fcn_d c k (fcn_b c s.envelope) i l +
      (1 / 2 : ℂ) * (3 * (fcn_w c k s.w0 (fcn_b c s.envelope)).2 i l -
        (fcn_w c k s.w0 (fcn_b c s.envelope)).1 i l)

/-- `envelope_store[:, l] = spsolve(left_cn_matrix, f_array)` (source line
303). -/
noncomputable def fcn_store (c : FcnCfg) (k : ℕ) (s : FcnState c) : Fin c.nr → Fin c.nt → ℂ :=
  fun i l => thomas_c c.nr c.left_cn_matrix (fun i2 => fcn_f c k s i2 l) i

/-- One iteration of the spectral propagation loop (source lines 254-308),
with the trace writes in program order: at `k = 0` row `k+1` is written from
the rescaled spectral intermediate field (line 287), and row `k+2` is written
from `envelope_store` at the end of every iteration (line 308). -/
noncomputable def fcn_body (c : FcnCfg) (k : ℕ) (s : FcnState c) : FcnState c :=
  let b := fcn_b c s.envelope
  let store := fcn_store c k s
  let t1 := if k = 0 then
      Function.update s.envelope_axis (k + 1) (fun l => fcn_c0 c k b c.axis l)
    else s.envelope_axis
  { envelope := store
    w0 := (fcn_w c k s.w0 b).2
    envelope_axis := Function.update t1 (k + 2) (fun l => store c.axis l) }

/-- Initial loop state of the spectral variant (source lines 249-251). -/
noncomputable def fcn_init (c : FcnCfg) (env0 w_init : Fin c.nr → Fin c.nt → ℂ)
    (t_init : ℕ → Fin c.nt → ℂ) : FcnState c :=
  { envelope := env0
    w0 := w_init
    envelope_axis := Function.update t_init 0 (fun l => env0 c.axis l) }

/-- State after the first `m` iterations of the spectral loop body. -/
noncomputable def fcn_steps (c : FcnCfg) (m : ℕ) (s : FcnState c) : FcnState c :=
  match m with
  | 0 => s
  | m + 1 => fcn_body c m (fcn_steps c m s)

/-- The full spectral propagation loop `for k in tqdm(range(N_STEPS - 1))`
(source line 254): one iteration fewer than the configured step count. -/
noncomputable def fcn_run (c : FcnCfg) (n_steps : ℕ) (s : FcnState c) : FcnState c :=
  (List.range (n_steps - 1)).foldl (fun s2 k => fcn_body c k s2) s

/-- A small concrete ADI configuration (planar geometry, zero matrix
coefficients, unit step, Kerr coefficient `1`, no MPA) used to evaluate the
engine at concrete inputs. -/
def adi_cfg1 : AdiCfg where
  nr := 2
  nt := 2
  coor := 0
  axis_node := 0
  axis_lt := by decide
  mat_cnt_1r := 0
  mat_cnt_1t := 0
  dist_step_len := 1
  kerr_coef := 1
  mpa_coef := 0
  n_photons := 5

/-- A concrete ADI starting state: the all-ones field with zeroed scratch
buffers. -/
def adi_s1 : AdiState adi_cfg1 where
  envelope := fun _ _ => 1
  w0 := fun _ _ => 0
  envelope_axis := fun _ _ => 0

/-- A small concrete spectral-variant configuration: planar geometry, zero
matrix coefficient, zero dispersion coefficient (`DELTA_T = 0`, making the
per-frequency factor identically one), no Kerr and no MPA. -/
noncomputable def fcn_cfg1 : FcnCfg where
  nr := 2
  nt := 2
  coor := 0
  axis_node := 0
  axis_lt := by decide
  matrix_cnt_1 := 0
  dist_step_len := 1
  kerr_coef := 0
  mpa_coef := 0
  n_photons := 5
  delta_t := 0
  time_step_len := 1
  frq := fun _ => 0

/-- A concrete spectral-variant starting state: the all-ones field with
zeroed scratch buffers. -/
noncomputable def fcn_s1 : FcnState fcn_cfg1 where
  envelope := fun _ _ => 1
  w0 := fun _ _ => 0
  envelope_axis := fun _ _ => 0

/-- A one-node-per-dimension spectral configuration used to instantiate
universally quantified theorems about the spectral factor. -/
noncomputable def fcn_cfg2 : FcnCfg where
  nr := 1
  nt := 1
  coor := 0
  axis_node := 0
  axis_lt := by decide
  matrix_cnt_1 := 0
  dist_step_len := 1
  kerr_coef := 0
  mpa_coef := 0
  n_photons := 5
  delta_t := 1
  time_step_len := 1
  frq := fun _ => 1

/-- The all-zero ADI state over the small concrete configuration. -/
def adi_s0 : AdiState adi_cfg1 where
  envelope := fun _ _ => 0
  w0 := fun _ _ => 0
  envelope_axis := fun _ _ => 0

/-- The all-zero spectral-variant state over the small concrete
configuration. -/
noncomputable def fcn_s0 : FcnState fcn_cfg1 where
  envelope := fun _ _ => 0
  w0 := fun _ _ => 0
  envelope_axis := fun _ _ => 0

theorem cn_r_diag0_interior (n : ℕ) (pos : CnPos) (coor : ℕ) (coef : Cq) (i : ℕ)
    (h1 : i ≠ 0) (h2 : i ≠ n - 1) :
    (crank_nicolson_diags_r n pos coor coef).2.1 i = 1 + 2 * coef := by
  unfold crank_nicolson_diags_r
  split_ifs <;> simp [h1, h2]

theorem cn_r_p1_interior (n : ℕ) (pos : CnPos) (coor : ℕ) (coef : Cq) (i : ℕ)
    (h1 : 1 ≤ i) (h2 : i < n - 1) :
    (crank_nicolson_diags_r n pos coor coef).2.2 i = -coef * qc (1 + (coor : ℚ) / (2 * i)) := by
  have hi : i ≠ 0 := Nat.one_le_iff_ne_zero.mp h1
  unfold crank_nicolson_diags_r
  split_ifs <;> simp [hi, h1, h2]

theorem cn_r_m1_entry (n : ℕ) (pos : CnPos) (coor : ℕ) (coef : Cq) (j : ℕ)
    (h : j < n - 2) :
    (crank_nicolson_diags_r n pos coor coef).1 j =
      -coef * qc (1 - (coor : ℚ) / (2 * (j + 1))) := by
  unfold crank_nicolson_diags_r
  split_ifs <;> simp [h]

theorem cn_r_p1_row0_cyl (n : ℕ) (pos : CnPos) (coef : Cq) :
    (crank_nicolson_diags_r n pos 1 coef).2.2 0 = -(2 * coef) := by
  unfold crank_nicolson_diags_r
  cases pos <;> simp

theorem cn_c_diag0_interior (n : ℕ) (pos : CnPos) (coor : ℕ) (coef : ℂ) (i : ℕ)
    (h1 : i ≠ 0) (h2 : i ≠ n - 1) :
    (crank_nicolson_diags n pos coor coef).2.1 i = 1 + 2 * coef := by
  unfold crank_nicolson_diags
  split_ifs <;> simp [h1, h2]

theorem cn_c_p1_interior (n : ℕ) (pos : CnPos) (coor : ℕ) (coef : ℂ) (i : ℕ)
    (h1 : 1 ≤ i) (h2 : i < n - 1) :
    (crank_nicolson_diags n pos coor coef).2.2 i =
      -coef * (1 + (coor : ℂ) / (2 * (i : ℂ))) := by
  have hi : i ≠ 0 := Nat.one_le_iff_ne_zero.mp h1
  unfold crank_nicolson_diags
  split_ifs <;> simp [hi, h1, h2]

theorem cn_c_m1_entry (n : ℕ) (pos : CnPos) (coor : ℕ) (coef : ℂ) (j : ℕ)
    (h : j < n - 2) :
    (crank_nicolson_diags n pos coor coef).1 j =
      -coef * (1 - (coor : ℂ) / (2 * ((j : ℂ) + 1))) := by
  unfold crank_nicolson_diags
  split_ifs <;> simp [h]

theorem cn_c_p1_row0_cyl (n : ℕ) (pos : CnPos) (coef : ℂ) :
    (crank_nicolson_diags n pos 1 coef).2.2 0 = -(2 * coef) := by
  unfold crank_nicolson_diags
  cases pos <;> simp

/-- Claim C6: for cylindrical geometry and every node count `n ≥ 3` and every
coefficient `α` (in both variants' builders), the implicit (`LEFT`) operator's
row-0 off-diagonal coefficient is exactly twice the interior off-diagonal
coefficient built with the same `α` (the interior off-diagonal entry of the
planar builder, which is `-α` at every interior position `j`). -/
theorem claim_C6 (n j : ℕ) (_hn : 3 ≤ n) (hj1 : 1 ≤ j) (hj2 : j < n - 1) (a : Cq) (b : ℂ) :
    (crank_nicolson_diags_r n CnPos.LEFT 1 a).2.2 0 =
      2 * (crank_nicolson_diags_r n CnPos.LEFT 0 a).2.2 j ∧
    (crank_nicolson_diags n CnPos.LEFT 1 b).2.2 0 =
      2 * (crank_nicolson_diags n CnPos.LEFT 0 b).2.2 j := by
  constructor
  · rw [cn_r_p1_row0_cyl, cn_r_p1_interior n CnPos.LEFT 0 a j hj1 hj2]
    simp
  · rw [cn_c_p1_row0_cyl, cn_c_p1_interior n CnPos.LEFT 0 b j hj1 hj2]
    simp

theorem claim_C6_witness :
    (3 ≤ 4 ∧ 1 ≤ 1 ∧ 1 < 4 - 1) ∧
    ((crank_nicolson_diags_r 4 CnPos.LEFT 1 ⟨2, 3⟩).2.2 0 =
        2 * (crank_nicolson_diags_r 4 CnPos.LEFT 0 ⟨2, 3⟩).2.2 1 ∧
      (crank_nicolson_diags 4 CnPos.LEFT 1 (2 + 3 * Complex.I)).2.2 0 =
        2 * (crank_nicolson_diags 4 CnPos.LEFT 0 (2 + 3 * Complex.I)).2.2 1) :=
  ⟨⟨by decide, by decide, by decide⟩,
    claim_C6 4 1 (by decide) (by decide) (by decide) ⟨2, 3⟩ (2 + 3 * Complex.I)⟩

/-- Claim C7: for `n = 4`, `α = 0.1 + 0i`, planar geometry, the implicit
(`LEFT`) operator of both variants' builders has main diagonal
`[1, 1.2, 1.2, 1]`, interior off-diagonal entries `-0.1`, and zero
off-diagonal coupling in its first and last rows. -/
theorem claim_C7 :
    ((crank_nicolson_diags_r 4 CnPos.LEFT 0 (qc (1/10))).2.1 0 = 1 ∧
     (crank_nicolson_diags_r 4 CnPos.LEFT 0 (qc (1/10))).2.1 1 = qc (6/5) ∧
     (crank_nicolson_diags_r 4 CnPos.LEFT 0 (qc (1/10))).2.1 2 = qc (6/5) ∧
     (crank_nicolson_diags_r 4 CnPos.LEFT 0 (qc (1/10))).2.1 3 = 1 ∧
     (crank_nicolson_diags_r 4 CnPos.LEFT 0 (qc (1/10))).1 0 = qc (-1/10) ∧
     (crank_nicolson_diags_r 4 CnPos.LEFT 0 (qc (1/10))).1 1 = qc (-1/10) ∧
     (crank_nicolson_diags_r 4 CnPos.LEFT 0 (qc (1/10))).2.2 1 = qc (-1/10) ∧
     (crank_nicolson_diags_r 4 CnPos.LEFT 0 (qc (1/10))).2.2 2 = qc (-1/10) ∧
     (crank_nicolson_diags_r 4 CnPos.LEFT 0 (qc (1/10))).2.2 0 = 0 ∧
     (crank_nicolson_diags_r 4 CnPos.LEFT 0 (qc (1/10))).1 2 = 0) ∧
    ((crank_nicolson_diags 4 CnPos.LEFT 0 (1/10)).2.1 0 = 1 ∧
     (crank_nicolson_diags 4 CnPos.LEFT 0 (1/10)).2.1 1 = 6/5 ∧
     (crank_nicolson_diags 4 CnPos.LEFT 0 (1/10)).2.1 2 = 6/5 ∧
     (crank_nicolson_diags 4 CnPos.LEFT 0 (1/10)).2.1 3 = 1 ∧
     (crank_nicolson_diags 4 CnPos.LEFT 0 (1/10)).1 0 = -(1/10) ∧
     (crank_nicolson_diags 4 CnPos.LEFT 0 (1/10)).1 1 = -(1/10) ∧
     (crank_nicolson_diags 4 CnPos.LEFT 0 (1/10)).2.2 1 = -(1/10) ∧
     (crank_nicolson_diags 4 CnPos.LEFT 0 (1/10)).2.2 2 = -(1/10) ∧
     (crank_nicolson_diags 4 CnPos.LEFT 0 (1/10)).2.2 0 = 0 ∧
     (crank_nicolson_diags 4 CnPos.LEFT 0 (1/10)).1 2 = 0) := by
  constructor
  · exact ⟨by decide, by decide, by decide, by decide, by decide, by decide, by decide,
      by decide, by decide, by decide⟩
  · refine ⟨?_, ?_, ?_, ?_, ?_, ?_, ?_, ?_, ?_, ?_⟩ <;>
      norm_num [crank_nicolson_diags]

/-- Claim C10: for every node count `n ≥ 3`, geometry flag and coefficient,
the paired operators built by the engines (`LEFT` with `α`, `RIGHT` with
`-α`) sum on every interior row to twice the identity: the main diagonals sum
to `2` and the corresponding off-diagonal entries are exact negatives of each
other, in both variants' builders. -/
theorem claim_C10 (n coor i : ℕ) (hn : 3 ≤ n) (h1 : 1 ≤ i) (h2 : i ≤ n - 2)
    (a : Cq) (b : ℂ) :
    ((crank_nicolson_diags_r n CnPos.LEFT coor a).2.1 i +
        (crank_nicolson_diags_r n CnPos.RIGHT coor (-a)).2.1 i = 2 ∧
      (crank_nicolson_diags_r n CnPos.LEFT coor a).2.2 i =
        -((crank_nicolson_diags_r n CnPos.RIGHT coor (-a)).2.2 i) ∧
      (crank_nicolson_diags_r n CnPos.LEFT coor a).1 (i - 1) =
        -((crank_nicolson_diags_r n CnPos.RIGHT coor (-a)).1 (i - 1))) ∧
    ((crank_nicolson_diags n CnPos.LEFT coor b).2.1 i +
        (crank_nicolson_diags n CnPos.RIGHT coor (-b)).2.1 i = 2 ∧
      (crank_nicolson_diags n CnPos.LEFT coor b).2.2 i =
        -((crank_nicolson_diags n CnPos.RIGHT coor (-b)).2.2 i) ∧
      (crank_nicolson_diags n CnPos.LEFT coor b).1 (i - 1) =
        -((crank_nicolson_diags n CnPos.RIGHT coor (-b)).1 (i - 1))) := by
  have hi0 : i ≠ 0 := Nat.one_le_iff_ne_zero.mp h1
  have hin : i ≠ n - 1 := by omega
  have hilt : i < n - 1 := by omega
  have him : i - 1 < n - 2 := by omega
  refine ⟨⟨?_, ?_, ?_⟩, ⟨?_, ?_, ?_⟩⟩
  · rw [cn_r_diag0_interior n CnPos.LEFT coor a i hi0 hin,
      cn_r_diag0_interior n CnPos.RIGHT coor (-a) i hi0 hin]
    ring
  · rw [cn_r_p1_interior n CnPos.LEFT coor a i h1 hilt,
      cn_r_p1_interior n CnPos.RIGHT coor (-a) i h1 hilt]
    ring
  · rw [cn_r_m1_entry n CnPos.LEFT coor a (i - 1) him,
      cn_r_m1_entry n CnPos.RIGHT coor (-a) (i - 1) him]
    ring
  · rw [cn_c_diag0_interior n CnPos.LEFT coor b i hi0 hin,
      cn_c_diag0_interior n CnPos.RIGHT coor (-b) i hi0 hin]
    ring
  · rw [cn_c_p1_interior n CnPos.LEFT coor b i h1 hilt,
      cn_c_p1_interior n CnPos.RIGHT coor (-b) i h1 hilt]
    ring
  · rw [cn_c_m1_entry n CnPos.LEFT coor b (i - 1) him,
      cn_c_m1_entry n CnPos.RIGHT coor (-b) (i - 1) him]
    ring

theorem claim_C10_witness :
    (3 ≤ 5 ∧ 1 ≤ 2 ∧ 2 ≤ 5 - 2) ∧
    (((crank_nicolson_diags_r 5 CnPos.LEFT 1 ⟨1, 2⟩).2.1 2 +
        (crank_nicolson_diags_r 5 CnPos.RIGHT 1 (-⟨1, 2⟩)).2.1 2 = 2 ∧
      (crank_nicolson_diags_r 5 CnPos.LEFT 1 ⟨1, 2⟩).2.2 2 =
        -((crank_nicolson_diags_r 5 CnPos.RIGHT 1 (-⟨1, 2⟩)).2.2 2) ∧
      (crank_nicolson_diags_r 5 CnPos.LEFT 1 ⟨1, 2⟩).1 (2 - 1) =
        -((crank_nicolson_diags_r 5 CnPos.RIGHT 1 (-⟨1, 2⟩)).1 (2 - 1))) ∧
    ((crank_nicolson_diags 5 CnPos.LEFT 1 Complex.I).2.1 2 +
        (crank_nicolson_diags 5 CnPos.RIGHT 1 (-Complex.I)).2.1 2 = 2 ∧
      (crank_nicolson_diags 5 CnPos.LEFT 1 Complex.I).2.2 2 =
        -((crank_nicolson_diags 5 CnPos.RIGHT 1 (-Complex.I)).2.2 2) ∧
      (crank_nicolson_diags 5 CnPos.LEFT 1 Complex.I).1 (2 - 1) =
        -((crank_nicolson_diags 5 CnPos.RIGHT 1 (-Complex.I)).1 (2 - 1)))) :=
  ⟨⟨by decide, by decide, by decide⟩,
    claim_C10 5 1 2 (by decide) (by decide) (by decide) ⟨1, 2⟩ Complex.I⟩

/-- Claim C3: at every warm step (`k ≠ 0`), the extrapolated nonlinear
contribution added to each implicit solve's right-hand side has weight
`0.25 * (3*new - old)` in the ADI variant — whose two half-steps evaluate the
nonlinear source twice per step, first on the current field and then on the
intermediate field — and weight `0.5 * (3*new - old)` in the spectral
variant, which evaluates it once per step, on the dispersion-stepped field. -/
theorem claim_C3 (c : AdiCfg) (cf : FcnCfg) (k : ℕ) (hk : k ≠ 0)
    (s : AdiState c) (sf : FcnState cf)
    (i : Fin c.nr) (l : Fin c.nt) (i2 : Fin cf.nr) (l2 : Fin cf.nt) :
    adi_f1 c k s i l =
      adi_b1 c s.envelope i l +
        qc (1/4) * (3 * nl_source c.dist_step_len c.kerr_coef c.mpa_coef c.n_photons
            (s.envelope i l) - s.w0 i l) ∧
    adi_f2 c k s i l =
      adi_b2 c k s i l +
        qc (1/4) * (3 * nl_source c.dist_step_len c.kerr_coef c.mpa_coef c.n_photons
            (adi_c_mid c k s i l) -
          nl_source c.dist_step_len c.kerr_coef c.mpa_coef c.n_photons (s.envelope i l)) ∧
    fcn_f cf k sf i2 l2 =
      fcn_d cf k (fcn_b cf sf.envelope) i2 l2 +
        (1/2 : ℂ) * (3 * nl_source_c cf.dist_step_len cf.kerr_coef cf.mpa_coef cf.n_photons
            (fcn_b cf sf.envelope i2 l2) - sf.w0 i2 l2) := by
  refine ⟨?_, ?_, ?_⟩
  · simp [adi_f1, adi_w_first, hk, AdiCfg.nl]
  · simp [adi_f2, adi_w_second, adi_w_first, hk, AdiCfg.nl]
  · simp [fcn_f, fcn_w, hk, FcnCfg.nl]

theorem claim_C3_witness :
    (1 : ℕ) ≠ 0 ∧
    (adi_f1 adi_cfg1 1 adi_s1 ⟨0, by decide⟩ ⟨0, by decide⟩ =
      adi_b1 adi_cfg1 adi_s1.envelope ⟨0, by decide⟩ ⟨0, by decide⟩ +
        qc (1/4) * (3 * nl_source adi_cfg1.dist_step_len adi_cfg1.kerr_coef
            adi_cfg1.mpa_coef adi_cfg1.n_photons (adi_s1.envelope ⟨0, by decide⟩ ⟨0, by decide⟩) - adi_s1.w0 ⟨0, by decide⟩ ⟨0, by decide⟩) ∧
    adi_f2 adi_cfg1 1 adi_s1 ⟨0, by decide⟩ ⟨0, by decide⟩ =
      adi_b2 adi_cfg1 1 adi_s1 ⟨0, by decide⟩ ⟨0, by decide⟩ +
        qc (1/4) * (3 * nl_source adi_cfg1.dist_step_len adi_cfg1.kerr_coef
            adi_cfg1.mpa_coef adi_cfg1.n_photons (adi_c_mid adi_cfg1 1 adi_s1 ⟨0, by decide⟩ ⟨0, by decide⟩) -
          nl_source adi_cfg1.dist_step_len adi_cfg1.kerr_coef adi_cfg1.mpa_coef
            adi_cfg1.n_photons (adi_s1.envelope ⟨0, by decide⟩ ⟨0, by decide⟩)) ∧
    fcn_f fcn_cfg1 1 fcn_s1 ⟨0, by decide⟩ ⟨0, by decide⟩ =
      fcn_d fcn_cfg1 1 (fcn_b fcn_cfg1 fcn_s1.envelope) ⟨0, by decide⟩ ⟨0, by decide⟩ +
        (1/2 : ℂ) * (3 * nl_source_c fcn_cfg1.dist_step_len fcn_cfg1.kerr_coef
            fcn_cfg1.mpa_coef fcn_cfg1.n_photons (fcn_b fcn_cfg1 fcn_s1.envelope ⟨0, by decide⟩ ⟨0, by decide⟩) -
          fcn_s1.w0 ⟨0, by decide⟩ ⟨0, by decide⟩)) :=
  ⟨by decide, claim_C3 adi_cfg1 fcn_cfg1 1 (by decide) adi_s1 fcn_s1 ⟨0, by decide⟩ ⟨0, by decide⟩ ⟨0, by decide⟩ ⟨0, by decide⟩⟩

/-- Claim C4, failing input: in the ADI variant at propagation step 0, the
second half-step's AB2 generations are not equal: the branch at source lines
355-369 stores a fresh evaluation of the intermediate field into the old
generation `w_array[i, :, 0]` and never reassigns `w_array[i, :, 1]`, which
still holds the first half-step's evaluation of the initial field (the
recomputed `d_array[i, :, 1]` and `d_array[i, :, 2]` of lines 366-367 are
dead).  On the all-ones field with Kerr coefficient `1`, unit step and zero
matrix coefficients, the old generation used is `1/8` while the new
generation used is `1`. -/
theorem claim_C4_counterexample :
    (adi_w_second adi_cfg1 0 (adi_w_first adi_cfg1 0 adi_s1.w0 adi_s1.envelope).2
        (adi_c_mid adi_cfg1 0 adi_s1)).1 ⟨0, by decide⟩ ⟨0, by decide⟩ = qc (1/8) ∧
    (adi_w_second adi_cfg1 0 (adi_w_first adi_cfg1 0 adi_s1.w0 adi_s1.envelope).2
        (adi_c_mid adi_cfg1 0 adi_s1)).2 ⟨0, by decide⟩ ⟨0, by decide⟩ = qc 1 ∧
    (adi_w_second adi_cfg1 0 (adi_w_first adi_cfg1 0 adi_s1.w0 adi_s1.envelope).2
        (adi_c_mid adi_cfg1 0 adi_s1)).1 ⟨0, by decide⟩ ⟨0, by decide⟩ ≠
      (adi_w_second adi_cfg1 0 (adi_w_first adi_cfg1 0 adi_s1.w0 adi_s1.envelope).2
        (adi_c_mid adi_cfg1 0 adi_s1)).2 ⟨0, by decide⟩ ⟨0, by decide⟩ := by
  refine ⟨by decide, by decide, by decide⟩

theorem cq_zero_div (b : Cq) : (0 : Cq) / b = 0 := by
  ext <;> simp

theorem nl_source_zero (dz : ℚ) (kerr mpa : Cq) (kphot : ℕ) :
    nl_source dz kerr mpa kphot 0 = 0 := by
  simp [nl_source]

theorem nl_source_c_zero (dz : ℝ) (kerr mpa : ℂ) (kphot : ℕ) :
    nl_source_c dz kerr mpa kphot 0 = 0 := by
  simp [nl_source_c]

theorem tri_matvec_zero (n : ℕ) (dg : (ℕ → Cq) × (ℕ → Cq) × (ℕ → Cq))
    (v : Fin n → Cq) (h : ∀ j, v j = 0) (i : Fin n) : tri_matvec n dg v i = 0 := by
  simp [tri_matvec, h]

theorem tri_matvec_c_zero (n : ℕ) (dg : (ℕ → ℂ) × (ℕ → ℂ) × (ℕ → ℂ))
    (v : Fin n → ℂ) (h : ∀ j, v j = 0) (i : Fin n) : tri_matvec_c n dg v i = 0 := by
  simp [tri_matvec_c, h]

theorem thomas_fwd_zero (m1 d0 p1 rhs : ℕ → Cq) (h : ∀ j, rhs j = 0) (i : ℕ) :
    (thomas_fwd m1 d0 p1 rhs i).2 = 0 := by
  induction i with
  | zero => simp [thomas_fwd, h 0, cq_zero_div]
  | succ i ih => simp [thomas_fwd, h (i + 1), ih, cq_zero_div]

theorem thomas_back_zero (n : ℕ) (cd : ℕ → Cq × Cq) (h : ∀ i, (cd i).2 = 0) (j : ℕ) :
    thomas_back n cd j = 0 := by
  induction j with
  | zero => simp [thomas_back, h]
  | succ j ih => simp [thomas_back, h, ih]

theorem thomas_zero (n : ℕ) (dg : (ℕ → Cq) × (ℕ → Cq) × (ℕ → Cq))
    (rhs : Fin n → Cq) (h : ∀ i, rhs i = 0) (i : Fin n) : thomas n dg rhs i = 0 := by
  unfold thomas
  apply thomas_back_zero
  intro j
  apply thomas_fwd_zero
  intro j2
  by_cases hj : j2 < n <;> simp [hj, h]

theorem thomas_fwd_c_zero (m1 d0 p1 rhs : ℕ → ℂ) (h : ∀ j, rhs j = 0) (i : ℕ) :
    (thomas_fwd_c m1 d0 p1 rhs i).2 = 0 := by
  induction i with
  | zero => simp [thomas_fwd_c, h 0]
  | succ i ih => simp [thomas_fwd_c, h (i + 1), ih]

theorem thomas_back_c_zero (n : ℕ) (cd : ℕ → ℂ × ℂ) (h : ∀ i, (cd i).2 = 0) (j : ℕ) :
    thomas_back_c n cd j = 0 := by
  induction j with
  | zero => simp [thomas_back_c, h]
  | succ j ih => simp [thomas_back_c, h, ih]

theorem thomas_c_zero (n : ℕ) (dg : (ℕ → ℂ) × (ℕ → ℂ) × (ℕ → ℂ))
    (rhs : Fin n → ℂ) (h : ∀ i, rhs i = 0) (i : Fin n) : thomas_c n dg rhs i = 0 := by
  unfold thomas_c
  apply thomas_back_c_zero
  intro j
  apply thomas_fwd_c_zero
  intro j2
  by_cases hj : j2 < n <;> simp [hj, h]

theorem adi_body_zero (c : AdiCfg) (k : ℕ) (s : AdiState c)
    (henv : ∀ i l, s.envelope i l = 0)
    (hw : k = 0 ∨ ∀ i l, s.w0 i l = 0) :
    (∀ i l, (adi_body c k s).envelope i l = 0) ∧
      (∀ i l, (adi_body c k s).w0 i l = 0) := by
  have hb1 : ∀ i l, adi_b1 c s.envelope i l = 0 := by
    intro i l
    exact tri_matvec_zero _ _ _ (fun j => henv i j) l
  have hw1 : ∀ i l, (adi_w_first c k s.w0 s.envelope).1 i l = 0 := by
    intro i l
    rcases hw with hk | hw0
    · simp [adi_w_first, hk, henv, AdiCfg.nl, nl_source]
    · by_cases hk : k = 0
      · simp [adi_w_first, hk, henv, AdiCfg.nl, nl_source]
      · simp [adi_w_first, hk, hw0]
  have hw2 : ∀ i l, (adi_w_first c k s.w0 s.envelope).2 i l = 0 := by
    intro i l
    by_cases hk : k = 0 <;> simp [adi_w_first, hk, henv, AdiCfg.nl, nl_source]
  have hf1 : ∀ i l, adi_f1 c k s i l = 0 := by
    intro i l
    simp [adi_f1, hb1 i l, hw1 i l, hw2 i l]
  have hcm : ∀ i l, adi_c_mid c k s i l = 0 := by
    intro i l
    exact thomas_zero _ _ _ (fun j => hf1 j l) i
  have hb2 : ∀ i l, adi_b2 c k s i l = 0 := by
    intro i l
    exact tri_matvec_zero _ _ _ (fun j => hcm j l) i
  have hws1 : ∀ i l,
      (adi_w_second c k (adi_w_first c k s.w0 s.envelope).2 (adi_c_mid c k s)).1 i l = 0 := by
    intro i l
    by_cases hk : k = 0
    · subst hk
      simp [adi_w_second, hcm, AdiCfg.nl, nl_source]
    · simp [adi_w_second, hk, hw2 i l]
  have hws2 : ∀ i l,
      (adi_w_second c k (adi_w_first c k s.w0 s.envelope).2 (adi_c_mid c k s)).2 i l = 0 := by
    intro i l
    by_cases hk : k = 0
    · subst hk
      simp [adi_w_second, hw2 i l]
    · simp [adi_w_second, hk, hcm, AdiCfg.nl, nl_source]
  have hf2 : ∀ i l, adi_f2 c k s i l = 0 := by
    intro i l
    simp [adi_f2, hb2 i l, hws1 i l, hws2 i l]
  have hst : ∀ i l, adi_store c k s i l = 0 := by
    intro i l
    exact thomas_zero _ _ _ (fun j => hf2 i j) l
  exact ⟨fun i l => hst i l, fun i l => hws2 i l⟩

theorem fcn_body_zero (c : FcnCfg) (k : ℕ) (s : FcnState c)
    (henv : ∀ i l, s.envelope i l = 0)
    (hw : k = 0 ∨ ∀ i l, s.w0 i l = 0) :
    (∀ i l, (fcn_body c k s).envelope i l = 0) ∧
      (∀ i l, (fcn_body c k s).w0 i l = 0) := by
  have hb : ∀ i l, fcn_b c s.envelope i l = 0 := by
    intro i l
    simp [fcn_b, fcn_spectral_line, dft, idft, henv]
  have hc0 : ∀ i l, fcn_c0 c k (fcn_b c s.envelope) i l = 0 := by
    intro i l
    by_cases hk : k = 0 <;> simp [fcn_c0, hk, hb]
  have hwp1 : ∀ i l, (fcn_w c k s.w0 (fcn_b c s.envelope)).1 i l = 0 := by
    intro i l
    rcases hw with hk | hw0
    · simp [fcn_w, hk, hb, FcnCfg.nl, nl_source_c]
    · by_cases hk : k = 0
      · simp [fcn_w, hk, hb, FcnCfg.nl, nl_source_c]
      · simp [fcn_w, hk, hw0]
  have hwp2 : ∀ i l, (fcn_w c k s.w0 (fcn_b c s.envelope)).2 i l = 0 := by
    intro i l
    by_cases hk : k = 0
    · subst hk
      simp [fcn_w, hc0, FcnCfg.nl, nl_source_c]
    · simp [fcn_w, hk, hb, FcnCfg.nl, nl_source_c]
  have hd : ∀ i l, fcn_d c k (fcn_b c s.envelope) i l = 0 := by
    intro i l
    exact tri_matvec_c_zero _ _ _ (fun j => hc0 j l) i
  have hf : ∀ i l, fcn_f c k s i l = 0 := by
    intro i l
    simp [fcn_f, hd i l, hwp1 i l, hwp2 i l]
  have hst : ∀ i l, fcn_store c k s i l = 0 := by
    intro i l
    exact thomas_c_zero _ _ _ (fun j => hf j l) i
  exact ⟨fun i l => hst i l, fun i l => hwp2 i l⟩

theorem adi_steps_zero (c : AdiCfg) (w_init : Fin c.nr → Fin c.nt → Cq)
    (t_init : ℕ → Fin c.nt → Cq) (m : ℕ) :
    (∀ i l, (adi_steps c m (adi_init c (fun _ _ => 0) w_init t_init)).envelope i l = 0) ∧
      (m = 0 ∨ ∀ i l, (adi_steps c m (adi_init c (fun _ _ => 0) w_init t_init)).w0 i l = 0) := by
  induction m with
  | zero => exact ⟨fun i l => rfl, Or.inl rfl⟩
  | succ m ih =>
    have hw : m = 0 ∨ ∀ i l, (adi_steps c m (adi_init c (fun _ _ => 0) w_init t_init)).w0 i l = 0 :=
      ih.2
    have hz := adi_body_zero c m (adi_steps c m (adi_init c (fun _ _ => 0) w_init t_init)) ih.1 hw
    exact ⟨hz.1, Or.inr hz.2⟩

theorem fcn_steps_zero (c : FcnCfg) (w_init : Fin c.nr → Fin c.nt → ℂ)
    (t_init : ℕ → Fin c.nt → ℂ) (m : ℕ) :
    (∀ i l, (fcn_steps c m (fcn_init c (fun _ _ => 0) w_init t_init)).envelope i l = 0) ∧
      (m = 0 ∨ ∀ i l, (fcn_steps c m (fcn_init c (fun _ _ => 0) w_init t_init)).w0 i l = 0) := by
  induction m with
  | zero => exact ⟨fun i l => rfl, Or.inl rfl⟩
  | succ m ih =>
    have hz := fcn_body_zero c m (fcn_steps c m (fcn_init c (fun _ _ => 0) w_init t_init)) ih.1 ih.2
    exact ⟨hz.1, Or.inr hz.2⟩

/-- Claim C5: for every configuration of either variant (any geometry and any
Kerr and MPA coefficients), a field that is identically zero at a propagation
step produces an identically zero field at the next step: at step 0
unconditionally (the bootstrap overwrites the history before use), at later
steps together with the carried nonlinear history — which is itself zero
whenever the preceding fields were zero, as the run-level parts record: a run
started from the identically zero field keeps an identically zero field after
every number of completed steps, whatever the uninitialized scratch buffers
contained. -/
theorem claim_C5 :
    (∀ (c : AdiCfg) (k : ℕ) (s : AdiState c),
        (∀ i l, s.envelope i l = 0) → (k = 0 ∨ ∀ i l, s.w0 i l = 0) →
        ∀ i l, (adi_body c k s).envelope i l = 0) ∧
    (∀ (c : FcnCfg) (k : ℕ) (s : FcnState c),
        (∀ i l, s.envelope i l = 0) → (k = 0 ∨ ∀ i l, s.w0 i l = 0) →
        ∀ i l, (fcn_body c k s).envelope i l = 0) ∧
    (∀ (c : AdiCfg) (w_init : Fin c.nr → Fin c.nt → Cq) (t_init : ℕ → Fin c.nt → Cq)
        (m : ℕ) (i : Fin c.nr) (l : Fin c.nt),
        (adi_steps c m (adi_init c (fun _ _ => 0) w_init t_init)).envelope i l = 0) ∧
    (∀ (c : FcnCfg) (w_init : Fin c.nr → Fin c.nt → ℂ) (t_init : ℕ → Fin c.nt → ℂ)
        (m : ℕ) (i : Fin c.nr) (l : Fin c.nt),
        (fcn_steps c m (fcn_init c (fun _ _ => 0) w_init t_init)).envelope i l = 0) :=
  ⟨fun c k s henv hw => (adi_body_zero c k s henv hw).1,
   fun c k s henv hw => (fcn_body_zero c k s henv hw).1,
   fun c w_init t_init m i l => (adi_steps_zero c w_init t_init m).1 i l,
   fun c w_init t_init m i l => (fcn_steps_zero c w_init t_init m).1 i l⟩

theorem claim_C5_witness :
    (adi_body adi_cfg1 0 adi_s0).envelope ⟨0, by decide⟩ ⟨0, by decide⟩ = 0 ∧
    (fcn_body fcn_cfg1 0 fcn_s0).envelope ⟨0, by decide⟩ ⟨0, by decide⟩ = 0 :=
  ⟨claim_C5.1 adi_cfg1 0 adi_s0 (fun _ _ => rfl) (Or.inl rfl) ⟨0, by decide⟩ ⟨0, by decide⟩,
   claim_C5.2.1 fcn_cfg1 0 fcn_s0 (fun _ _ => rfl) (Or.inl rfl) ⟨0, by decide⟩ ⟨0, by decide⟩⟩

theorem cexp_unit_ne_one (n : ℕ) (hn : 0 < n) (d : ℤ) (hd : ¬ (n : ℤ) ∣ d) :
    Complex.exp (2 * Real.pi * Complex.I * d / n) ≠ 1 := by
  intro h
  rw [Complex.exp_eq_one_iff] at h
  obtain ⟨m, hm⟩ := h
  have hn0 : ((n : ℕ) : ℂ) ≠ 0 := Nat.cast_ne_zero.mpr hn.ne'
  have harg : 2 * (Real.pi : ℂ) * Complex.I * d / n = (2 * Real.pi * Complex.I) * ((d : ℂ) / n) := by
    ring
  rw [harg] at hm
  have hm2 : (2 * (Real.pi : ℂ) * Complex.I) * ((d : ℂ) / n) =
      (2 * Real.pi * Complex.I) * (m : ℂ) := by
    rw [hm]; ring
  have hdn : (d : ℂ) / n = (m : ℂ) := mul_left_cancel₀ Complex.two_pi_I_ne_zero hm2
  have hdc : (d : ℂ) = (m : ℂ) * n := by
    field_simp at hdn
    exact hdn
  have hdz : d = m * n := by exact_mod_cast hdc
  exact hd ⟨m, hdz.trans (mul_comm m n)⟩

theorem cexp_term_pow (n : ℕ) (d : ℤ) (j : ℕ) :
    Complex.exp (2 * Real.pi * Complex.I * d * (j : ℂ) / n) =
      Complex.exp (2 * Real.pi * Complex.I * d / n) ^ j := by
  rw [← Complex.exp_nat_mul]
  congr 1
  ring

theorem cexp_inner_sum (n : ℕ) (hn : 0 < n) (d : ℤ) :
    ∑ j : Fin n, Complex.exp (2 * Real.pi * Complex.I * d * ((j : ℕ) : ℂ) / n) =
      if (n : ℤ) ∣ d then (n : ℂ) else 0 := by
  have hn0 : ((n : ℕ) : ℂ) ≠ 0 := Nat.cast_ne_zero.mpr hn.ne'
  rw [Fin.sum_univ_eq_sum_range (fun j =>
    Complex.exp (2 * Real.pi * Complex.I * d * ((j : ℕ) : ℂ) / n))]
  by_cases hdvd : (n : ℤ) ∣ d
  · rw [if_pos hdvd]
    obtain ⟨m, hm⟩ := hdvd
    have hr : Complex.exp (2 * Real.pi * Complex.I * d / n) = 1 := by
      have harg : 2 * (Real.pi : ℂ) * Complex.I * d / n = (m : ℂ) * (2 * Real.pi * Complex.I) := by
        subst hm
        push_cast
        field_simp
        ring
      rw [harg]
      exact Complex.exp_int_mul_two_pi_mul_I m
    simp only [cexp_term_pow, hr, one_pow, Finset.sum_const, Finset.card_range, nsmul_eq_mul,
      mul_one]
  · rw [if_neg hdvd]
    have hne := cexp_unit_ne_one n hn d hdvd
    have hpow : Complex.exp (2 * Real.pi * Complex.I * d / n) ^ n = 1 := by
      rw [← cexp_term_pow]
      have harg : 2 * (Real.pi : ℂ) * Complex.I * d * (n : ℂ) / n = (d : ℂ) * (2 * Real.pi * Complex.I) := by
        field_simp
        ring
      rw [harg]
      exact Complex.exp_int_mul_two_pi_mul_I d
    simp only [cexp_term_pow]
    rw [geom_sum_eq hne, hpow]
    simp

theorem fin_sub_dvd_iff (n : ℕ) (l m : Fin n) :
    ((n : ℤ) ∣ ((l : ℕ) : ℤ) - ((m : ℕ) : ℤ)) ↔ l = m := by
  constructor
  · intro hdvd
    have habs : |((l : ℕ) : ℤ) - ((m : ℕ) : ℤ)| < (n : ℤ) := by
      have h1 := l.isLt
      have h2 := m.isLt
      rw [abs_lt]
      omega
    have h0 := Int.eq_zero_of_abs_lt_dvd hdvd habs
    have : (l : ℕ) = (m : ℕ) := by omega
    exact Fin.ext this
  · intro h
    subst h
    simp

theorem idft_dft (n : ℕ) (hn : 0 < n) (x : Fin n → ℂ) : idft n (dft n x) = x := by
  have hn0 : ((n : ℕ) : ℂ) ≠ 0 := Nat.cast_ne_zero.mpr hn.ne'
  funext l
  unfold idft dft
  have hsum : ∀ k : Fin n,
      (∑ m : Fin n, x m * Complex.exp (-(2 * Real.pi * Complex.I * ((k : ℕ) : ℂ) * ((m : ℕ) : ℂ)) / n)) *
          Complex.exp (2 * Real.pi * Complex.I * ((k : ℕ) : ℂ) * ((l : ℕ) : ℂ) / n) =
        ∑ m : Fin n, x m *
          Complex.exp (2 * Real.pi * Complex.I * (((((l : ℕ) : ℤ) - ((m : ℕ) : ℤ) : ℤ)) : ℂ) * ((k : ℕ) : ℂ) / n) := by
    intro k
    rw [Finset.sum_mul]
    refine Finset.sum_congr rfl fun m _ => ?_
    rw [mul_assoc, ← Complex.exp_add]
    congr 2
    push_cast
    field_simp
    ring
  rw [Finset.sum_congr rfl fun k _ => hsum k, Finset.sum_comm]
  have hinner : ∀ m : Fin n,
      (∑ k : Fin n, x m *
        Complex.exp (2 * Real.pi * Complex.I * (((((l : ℕ) : ℤ) - ((m : ℕ) : ℤ) : ℤ)) : ℂ) * ((k : ℕ) : ℂ) / n)) =
      x m * (if ((n : ℤ) ∣ ((l : ℕ) : ℤ) - ((m : ℕ) : ℤ)) then (n : ℂ) else 0) := by
    intro m
    rw [← Finset.mul_sum]
    rw [cexp_inner_sum n hn (((l : ℕ) : ℤ) - ((m : ℕ) : ℤ))]
  rw [Finset.sum_congr rfl fun m _ => hinner m]
  have hite : ∀ m : Fin n,
      (x m * (if ((n : ℤ) ∣ ((l : ℕ) : ℤ) - ((m : ℕ) : ℤ)) then (n : ℂ) else 0)) =
        (if l = m then x m * n else 0) := by
    intro m
    by_cases h : l = m
    · rw [if_pos ((fin_sub_dvd_iff n l m).mpr h), if_pos h]
    · rw [if_neg (fun hd => h ((fin_sub_dvd_iff n l m).mp hd)), if_neg h, mul_zero]
  rw [Finset.sum_congr rfl fun m _ => hite m]
  rw [Finset.sum_ite_eq Finset.univ l (fun m => x m * n)]
  simp [hn0]

theorem conj_cexp (n : ℕ) (ε : ℤ) (k j : ℕ) :
    (starRingEnd ℂ) (Complex.exp (2 * Real.pi * Complex.I * (ε : ℂ) * (k : ℂ) * (j : ℂ) / n)) =
      Complex.exp (-(2 * Real.pi * Complex.I * (ε : ℂ) * (k : ℂ) * (j : ℂ) / n)) := by
  rw [← Complex.exp_conj]
  congr 1
  simp only [map_div₀, map_mul, Complex.conj_I, Complex.conj_ofReal, map_intCast, map_natCast,
    map_ofNat]
  ring

theorem kernel_sum_mul_conj (n : ℕ) (hn : 0 < n) (ε : ℤ) (hε : ε = 1 ∨ ε = -1) (y : Fin n → ℂ) :
    ∑ j : Fin n, ((∑ k : Fin n, y k *
        Complex.exp (2 * Real.pi * Complex.I * (ε : ℂ) * ((k : ℕ) : ℂ) * ((j : ℕ) : ℂ) / n)) *
      (starRingEnd ℂ) (∑ k : Fin n, y k *
        Complex.exp (2 * Real.pi * Complex.I * (ε : ℂ) * ((k : ℕ) : ℂ) * ((j : ℕ) : ℂ) / n))) =
      (n : ℂ) * ∑ k : Fin n, y k * (starRingEnd ℂ) (y k) := by
  have hstep1 : ∀ j : Fin n,
      (∑ k : Fin n, y k *
          Complex.exp (2 * Real.pi * Complex.I * (ε : ℂ) * ((k : ℕ) : ℂ) * ((j : ℕ) : ℂ) / n)) *
        (starRingEnd ℂ) (∑ k : Fin n, y k *
          Complex.exp (2 * Real.pi * Complex.I * (ε : ℂ) * ((k : ℕ) : ℂ) * ((j : ℕ) : ℂ) / n)) =
      ∑ k : Fin n, ∑ m : Fin n, (y k * (starRingEnd ℂ) (y m)) *
        Complex.exp (2 * Real.pi * Complex.I *
          (((ε * (((k : ℕ) : ℤ) - ((m : ℕ) : ℤ)) : ℤ)) : ℂ) * ((j : ℕ) : ℂ) / n) := by
    intro j
    rw [map_sum, Finset.sum_mul_sum]
    refine Finset.sum_congr rfl fun k _ => Finset.sum_congr rfl fun m _ => ?_
    rw [map_mul, conj_cexp n ε (m : ℕ) (j : ℕ)]
    rw [mul_mul_mul_comm, ← Complex.exp_add]
    congr 1
    push_cast
    ring_nf
  rw [Finset.sum_congr rfl fun j _ => hstep1 j]
  rw [Finset.sum_comm]
  have hstep2 : ∀ k : Fin n,
      (∑ j : Fin n, ∑ m : Fin n, (y k * (starRingEnd ℂ) (y m)) *
        Complex.exp (2 * Real.pi * Complex.I *
          (((ε * (((k : ℕ) : ℤ) - ((m : ℕ) : ℤ)) : ℤ)) : ℂ) * ((j : ℕ) : ℂ) / n)) =
      ∑ m : Fin n, (y k * (starRingEnd ℂ) (y m)) *
        (if ((n : ℤ) ∣ ε * (((k : ℕ) : ℤ) - ((m : ℕ) : ℤ))) then (n : ℂ) else 0) := by
    intro k
    rw [Finset.sum_comm]
    refine Finset.sum_congr rfl fun m _ => ?_
    rw [← Finset.mul_sum, cexp_inner_sum n hn (ε * (((k : ℕ) : ℤ) - ((m : ℕ) : ℤ)))]
  rw [Finset.sum_congr rfl fun k _ => hstep2 k]
  have hdvd_iff : ∀ k m : Fin n,
      ((n : ℤ) ∣ ε * (((k : ℕ) : ℤ) - ((m : ℕ) : ℤ))) ↔ k = m := by
    intro k m
    rcases hε with h | h <;> subst h
    · rw [one_mul]
      exact fin_sub_dvd_iff n k m
    · constructor
      · intro hd
        refine (fin_sub_dvd_iff n k m).mp ?_
        have := (dvd_neg (α := ℤ)).mpr hd
        simpa using this
      · intro h
        subst h
        simp
  have hstep3 : ∀ k m : Fin n,
      ((y k * (starRingEnd ℂ) (y m)) *
        (if ((n : ℤ) ∣ ε * (((k : ℕ) : ℤ) - ((m : ℕ) : ℤ))) then (n : ℂ) else 0)) =
      (if k = m then (y k * (starRingEnd ℂ) (y k)) * n else 0) := by
    intro k m
    by_cases h : k = m
    · subst h
      rw [if_pos ((hdvd_iff k k).mpr rfl), if_pos rfl]
    · rw [if_neg (fun hd => h ((hdvd_iff k m).mp hd)), if_neg h, mul_zero]
  rw [Finset.sum_congr rfl fun k _ => Finset.sum_congr rfl fun m _ => hstep3 k m]
  rw [Finset.sum_congr rfl fun k _ => Finset.sum_ite_eq Finset.univ k
    (fun m => (y k * (starRingEnd ℂ) (y k)) * n)]
  simp only [Finset.mem_univ, if_true]
  rw [← Finset.sum_mul]
  exact mul_comm _ _

theorem kernel_parseval (n : ℕ) (hn : 0 < n) (ε : ℤ) (hε : ε = 1 ∨ ε = -1) (y : Fin n → ℂ) :
    ∑ j : Fin n, Complex.normSq (∑ k : Fin n, y k *
        Complex.exp (2 * Real.pi * Complex.I * (ε : ℂ) * ((k : ℕ) : ℂ) * ((j : ℕ) : ℂ) / n)) =
      (n : ℝ) * ∑ k : Fin n, Complex.normSq (y k) := by
  have h := kernel_sum_mul_conj n hn ε hε y
  simp only [Complex.mul_conj] at h
  exact_mod_cast h

theorem spectral_line_norm (n : ℕ) (hn : 0 < n) (coeff : Fin n → ℂ)
    (hc : ∀ k, Complex.abs (coeff k) = 1) (x : Fin n → ℂ) :
    ∑ l : Fin n, Complex.normSq (fcn_spectral_line n coeff x l) =
      ∑ l : Fin n, Complex.normSq (x l) := by
  have hnR : ((n : ℕ) : ℝ) ≠ 0 := Nat.cast_ne_zero.mpr hn.ne'
  have key1 := kernel_parseval n hn 1 (Or.inl rfl) (fun k => coeff k * dft n x k)
  simp only [Int.cast_one, one_mul, mul_one] at key1
  have key2 := kernel_parseval n hn (-1) (Or.inr rfl) x
  have harg : ∀ k j : Fin n,
      Complex.exp (2 * Real.pi * Complex.I * ((-1 : ℤ) : ℂ) * ((k : ℕ) : ℂ) * ((j : ℕ) : ℂ) / n) =
        Complex.exp (-(2 * Real.pi * Complex.I * ((j : ℕ) : ℂ) * ((k : ℕ) : ℂ)) / n) := by
    intro k j
    congr 1
    push_cast
    ring
  have key2a : ∑ j : Fin n, Complex.normSq (dft n x j) =
      (n : ℝ) * ∑ k : Fin n, Complex.normSq (x k) := by
    rw [← key2]
    refine Finset.sum_congr rfl fun j _ => ?_
    unfold dft
    congr 1
    exact Finset.sum_congr rfl fun k _ => by rw [harg k j]
  have hy : ∀ k : Fin n, Complex.normSq (coeff k * dft n x k) = Complex.normSq (dft n x k) := by
    intro k
    rw [Complex.normSq_mul, Complex.normSq_eq_abs, hc k]
    norm_num
  have hline : ∀ l : Fin n, fcn_spectral_line n coeff x l =
      (∑ k : Fin n, (coeff k * dft n x k) *
        Complex.exp (2 * Real.pi * Complex.I * ((k : ℕ) : ℂ) * ((l : ℕ) : ℂ) / n)) / n := fun l => rfl
  calc
    ∑ l : Fin n, Complex.normSq (fcn_spectral_line n coeff x l)
        = ∑ l : Fin n, Complex.normSq (∑ k : Fin n, (coeff k * dft n x k) *
            Complex.exp (2 * Real.pi * Complex.I * ((k : ℕ) : ℂ) * ((l : ℕ) : ℂ) / n)) /
              ((n : ℝ) * (n : ℝ)) := by
          refine Finset.sum_congr rfl fun l _ => ?_
          rw [hline l, Complex.normSq_div, Complex.normSq_natCast]
    _ = (∑ l : Fin n, Complex.normSq (∑ k : Fin n, (coeff k * dft n x k) *
            Complex.exp (2 * Real.pi * Complex.I * ((k : ℕ) : ℂ) * ((l : ℕ) : ℂ) / n))) /
              ((n : ℝ) * (n : ℝ)) := by
          rw [Finset.sum_div]
    _ = ((n : ℝ) * ∑ k : Fin n, Complex.normSq (coeff k * dft n x k)) / ((n : ℝ) * (n : ℝ)) := by
          rw [key1]
    _ = ((n : ℝ) * ∑ k : Fin n, Complex.normSq (dft n x k)) / ((n : ℝ) * (n : ℝ)) := by
          rw [Finset.sum_congr rfl fun k _ => hy k]
    _ = ((n : ℝ) * ((n : ℝ) * ∑ k : Fin n, Complex.normSq (x k))) / ((n : ℝ) * (n : ℝ)) := by
          rw [key2a]
    _ = ∑ l : Fin n, Complex.normSq (x l) := by
          field_simp
          ring

/-- Claim C9: every entry of the precomputed per-frequency dispersion factor
`fourier_coeff` has modulus exactly 1 — its exponent is purely imaginary
since `DELTA_T`, the frequency axis and the time step are real — and for any
unit-modulus factor the spectral half-step (forward transform, elementwise
multiply, inverse transform) preserves the sum of squared moduli of each
temporal line for every input field, in exact arithmetic. -/
theorem claim_C9 :
    (∀ (c : FcnCfg) (k : Fin c.nt), Complex.abs (fourier_coeff c k) = 1) ∧
    (∀ (n : ℕ), 0 < n → ∀ coeff : Fin n → ℂ, (∀ k, Complex.abs (coeff k) = 1) →
      ∀ x : Fin n → ℂ,
        ∑ l : Fin n, Complex.normSq (fcn_spectral_line n coeff x l) =
          ∑ l : Fin n, Complex.normSq (x l)) := by
  constructor
  · intro c k
    unfold fourier_coeff
    rw [Complex.abs_exp]
    have hre : (-2 * Complex.I * (c.delta_t : ℂ) *
        (((c.frq k : ℂ)) * (c.time_step_len : ℂ)) ^ 2).re = 0 := by
      have harg : (-2 * Complex.I * (c.delta_t : ℂ) *
          (((c.frq k : ℂ)) * (c.time_step_len : ℂ)) ^ 2) =
          Complex.I * ((-2 * c.delta_t * (c.frq k * c.time_step_len) ^ 2 : ℝ) : ℂ) := by
        push_cast
        ring
      rw [harg, Complex.mul_re, Complex.I_re, Complex.I_im, Complex.ofReal_re,
        Complex.ofReal_im]
      ring
    rw [hre, Real.exp_zero]
  · intro n hn coeff hc x
    exact spectral_line_norm n hn coeff hc x

theorem claim_C9_witness :
    0 < 1 ∧
    (∑ l : Fin 1, Complex.normSq (fcn_spectral_line 1 (fourier_coeff fcn_cfg2)
        (fun _ => 0) l) = ∑ l : Fin 1, Complex.normSq ((fun _ => (0 : ℂ)) l)) :=
  ⟨by decide,
    claim_C9.2 1 (by decide) (fourier_coeff fcn_cfg2)
      (fun k => claim_C9.1 fcn_cfg2 k) (fun _ => 0)⟩

theorem adi_run_eq_steps (c : AdiCfg) (m : ℕ) (s : AdiState c) :
    adi_run c m s = adi_steps c m s := by
  induction m with
  | zero => rfl
  | succ m ih =>
    unfold adi_run at ih ⊢
    rw [List.range_succ, List.foldl_append]
    rw [ih]
    rfl

theorem fcn_run_eq_steps (c : FcnCfg) (n_steps : ℕ) (s : FcnState c) :
    fcn_run c n_steps s = fcn_steps c (n_steps - 1) s := by
  unfold fcn_run
  generalize n_steps - 1 = m
  induction m with
  | zero => rfl
  | succ m ih =>
    rw [List.range_succ, List.foldl_append]
    rw [ih]
    rfl

theorem fcn_cfg1_nl_zero (z : ℂ) : fcn_cfg1.nl z = 0 := by
  simp [FcnCfg.nl, nl_source_c, fcn_cfg1]

theorem fcn_cfg1_right_zero (v : Fin fcn_cfg1.nr → ℂ) (i : Fin fcn_cfg1.nr) :
    tri_matvec_c fcn_cfg1.nr fcn_cfg1.right_cn_matrix v i = 0 := by
  have h0 : fcn_cfg1.right_cn_matrix =
      crank_nicolson_diags 2 CnPos.RIGHT 0 (-0) := rfl
  fin_cases i <;>
    simp [h0, tri_matvec_c, crank_nicolson_diags]

theorem fcn_store0_cfg1_zero (s : FcnState fcn_cfg1) (i : Fin fcn_cfg1.nr)
    (l : Fin fcn_cfg1.nt) : fcn_store fcn_cfg1 0 s i l = 0 := by
  apply thomas_c_zero
  intro i2
  unfold fcn_f
  rw [show (fcn_w fcn_cfg1 0 s.w0 (fcn_b fcn_cfg1 s.envelope)).1 i2 l = 0 from
      fcn_cfg1_nl_zero _,
    show (fcn_w fcn_cfg1 0 s.w0 (fcn_b fcn_cfg1 s.envelope)).2 i2 l = 0 from
      fcn_cfg1_nl_zero _,
    show fcn_d fcn_cfg1 0 (fcn_b fcn_cfg1 s.envelope) i2 l = 0 from
      fcn_cfg1_right_zero _ _]
  ring

/-- Claim C2, counterexample: with the configured step count set to 1 in the
spectral variant, the loop `for k in range(N_STEPS - 1)` executes zero
iterations, so the final field is the initial field (value 1 on the axis)
rather than the field after one committed propagation step (value 0 on the
axis for this configuration): the final field has undergone `N_STEPS - 1`
steps, not `N_STEPS`. -/
theorem claim_C2_counterexample :
    (fcn_run fcn_cfg1 1
        (fcn_init fcn_cfg1 (fun _ _ => 1) (fun _ _ => 0) (fun _ _ => 0))).envelope
        ⟨0, by decide⟩ ⟨0, by decide⟩ = 1 ∧
    (fcn_steps fcn_cfg1 1
        (fcn_init fcn_cfg1 (fun _ _ => 1) (fun _ _ => 0) (fun _ _ => 0))).envelope
        ⟨0, by decide⟩ ⟨0, by decide⟩ = 0 ∧
    (fcn_run fcn_cfg1 1
        (fcn_init fcn_cfg1 (fun _ _ => 1) (fun _ _ => 0) (fun _ _ => 0))).envelope ≠
      (fcn_steps fcn_cfg1 1
        (fcn_init fcn_cfg1 (fun _ _ => 1) (fun _ _ => 0) (fun _ _ => 0))).envelope := by
  have h1 : (fcn_run fcn_cfg1 1
      (fcn_init fcn_cfg1 (fun _ _ => 1) (fun _ _ => 0) (fun _ _ => 0))).envelope
      ⟨0, by decide⟩ ⟨0, by decide⟩ = 1 := rfl
  have h2 : (fcn_steps fcn_cfg1 1
      (fcn_init fcn_cfg1 (fun _ _ => 1) (fun _ _ => 0) (fun _ _ => 0))).envelope
      ⟨0, by decide⟩ ⟨0, by decide⟩ = 0 :=
    fcn_store0_cfg1_zero _ _ _
  refine ⟨h1, h2, fun h => ?_⟩
  have := congrFun (congrFun h ⟨0, by decide⟩) ⟨0, by decide⟩
  rw [h1, h2] at this
  exact one_ne_zero this

/-- Claim C2 (amended): each variant's loop body executes the half-step
sequence exactly once per iteration, and the run is the iterate of the body:
the ADI loop `for k in range(N_STEPS)` leaves the final field after exactly
`N_STEPS` committed propagation steps, while the spectral loop
`for k in range(N_STEPS - 1)` leaves it after exactly `N_STEPS - 1`. -/
theorem claim_C2 :
    (∀ (c : AdiCfg) (n_steps : ℕ) (s : AdiState c),
      adi_run c n_steps s = adi_steps c n_steps s) ∧
    (∀ (c : FcnCfg) (n_steps : ℕ) (s : FcnState c),
      fcn_run c n_steps s = fcn_steps c (n_steps - 1) s) :=
  ⟨adi_run_eq_steps, fcn_run_eq_steps⟩

theorem adi_body_axis_ne (c : AdiCfg) (k : ℕ) (s : AdiState c) (j : ℕ) (hj : j ≠ k + 1) :
    (adi_body c k s).envelope_axis j = s.envelope_axis j := by
  by_cases hk : k = 0
  · subst hk
    simp only [adi_body, if_true]
    rw [Function.update_noteq hj, Function.update_noteq hj, Function.update_noteq hj]
  · simp only [adi_body]
    rw [Function.update_noteq hj, if_neg hk, if_neg hk]

theorem adi_body_axis_eq (c : AdiCfg) (k : ℕ) (s : AdiState c) :
    (adi_body c k s).envelope_axis (k + 1) = fun l => adi_store c k s c.axis l := by
  simp only [adi_body]
  rw [Function.update_same]

theorem adi_trace_rows (c : AdiCfg) (s0 : AdiState c) (m : ℕ) :
    (adi_steps c m s0).envelope_axis 0 = s0.envelope_axis 0 ∧
    ∀ j, 1 ≤ j → j ≤ m → (adi_steps c m s0).envelope_axis j =
      fun l => (adi_steps c j s0).envelope c.axis l := by
  induction m with
  | zero => exact ⟨rfl, fun j h1 h2 => absurd h2 (by omega)⟩
  | succ m ih =>
    constructor
    · show (adi_body c m (adi_steps c m s0)).envelope_axis 0 = _
      rw [adi_body_axis_ne c m _ 0 (by omega)]
      exact ih.1
    · intro j h1 h2
      by_cases hj : j = m + 1
      · subst hj
        show (adi_body c m (adi_steps c m s0)).envelope_axis (m + 1) = _
        rw [adi_body_axis_eq]
        rfl
      · show (adi_body c m (adi_steps c m s0)).envelope_axis j = _
        rw [adi_body_axis_ne c m _ j (by omega)]
        exact ih.2 j h1 (by omega)

theorem fcn_body_axis_ne (c : FcnCfg) (k : ℕ) (s : FcnState c) (j : ℕ)
    (hj2 : j ≠ k + 2) (hj1 : k = 0 → j ≠ k + 1) :
    (fcn_body c k s).envelope_axis j = s.envelope_axis j := by
  by_cases hk : k = 0
  · subst hk
    have h1 : j ≠ 0 + 1 := hj1 rfl
    simp only [fcn_body, if_true]
    rw [Function.update_noteq hj2, Function.update_noteq h1]
  · simp only [fcn_body]
    rw [Function.update_noteq hj2, if_neg hk]

theorem fcn_body_axis_eq2 (c : FcnCfg) (k : ℕ) (s : FcnState c) :
    (fcn_body c k s).envelope_axis (k + 2) = fun l => fcn_store c k s c.axis l := by
  simp only [fcn_body]
  rw [Function.update_same]

theorem fcn_body_axis_eq1 (c : FcnCfg) (s : FcnState c) :
    (fcn_body c 0 s).envelope_axis 1 =
      fun l => fcn_c0 c 0 (fcn_b c s.envelope) c.axis l := by
  simp only [fcn_body, if_true]
  rw [Function.update_noteq (by omega : (1 : ℕ) ≠ 0 + 2)]
  have h : (1 : ℕ) = 0 + 1 := by omega
  rw [h, Function.update_same]

theorem fcn_trace_rows (c : FcnCfg) (s0 : FcnState c) (m : ℕ) :
    (fcn_steps c m s0).envelope_axis 0 = s0.envelope_axis 0 ∧
    (1 ≤ m → (fcn_steps c m s0).envelope_axis 1 =
      fun l => fcn_c0 c 0 (fcn_b c s0.envelope) c.axis l) ∧
    ∀ j, 2 ≤ j → j ≤ m + 1 → (fcn_steps c m s0).envelope_axis j =
      fun l => (fcn_steps c (j - 1) s0).envelope c.axis l := by
  induction m with
  | zero =>
    refine ⟨rfl, fun h => absurd h (by omega), fun j h1 h2 => absurd h2 (by omega)⟩
  | succ m ih =>
    refine ⟨?_, ?_, ?_⟩
    · show (fcn_body c m (fcn_steps c m s0)).envelope_axis 0 = _
      rw [fcn_body_axis_ne c m _ 0 (by omega) (by omega)]
      exact ih.1
    · intro _
      by_cases hm : m = 0
      · subst hm
        show (fcn_body c 0 (fcn_steps c 0 s0)).envelope_axis 1 = _
        rw [fcn_body_axis_eq1]
        rfl
      · show (fcn_body c m (fcn_steps c m s0)).envelope_axis 1 = _
        rw [fcn_body_axis_ne c m _ 1 (by omega) (by omega)]
        exact ih.2.1 (by omega)
    · intro j h1 h2
      by_cases hj : j = m + 2
      · subst hj
        show (fcn_body c m (fcn_steps c m s0)).envelope_axis (m + 2) = _
        rw [fcn_body_axis_eq2]
        rfl
      · show (fcn_body c m (fcn_steps c m s0)).envelope_axis j = _
        rw [fcn_body_axis_ne c m _ j (by omega) (by omega)]
        exact ih.2.2 j h1 (by omega)

/-- Claim C1 (amended): in the ADI variant, trace row `i` equals the axis
slice of the field after exactly `i` completed propagation steps, for every
`0 ≤ i ≤ N_STEPS`.  In the spectral variant the rows are staggered: row 0 is
the initial axis slice, row 1 holds the axis slice of the intermediate field
after step 0's spectral half-step (not a committed field), and row `i` for
`2 ≤ i ≤ N_STEPS` holds the axis slice of the field after `i - 1` completed
steps. -/
theorem claim_C1 :
    (∀ (c : AdiCfg) (n_steps : ℕ) (env0 w_init : Fin c.nr → Fin c.nt → Cq)
        (t_init : ℕ → Fin c.nt → Cq) (i : ℕ), i ≤ n_steps →
      (adi_run c n_steps (adi_init c env0 w_init t_init)).envelope_axis i =
        fun l => (adi_steps c i (adi_init c env0 w_init t_init)).envelope c.axis l) ∧
    (∀ (c : FcnCfg) (n_steps : ℕ) (env0 w_init : Fin c.nr → Fin c.nt → ℂ)
        (t_init : ℕ → Fin c.nt → ℂ),
      ((fcn_run c n_steps (fcn_init c env0 w_init t_init)).envelope_axis 0 =
        fun l => env0 c.axis l) ∧
      (2 ≤ n_steps →
        (fcn_run c n_steps (fcn_init c env0 w_init t_init)).envelope_axis 1 =
          fun l => fcn_c0 c 0 (fcn_b c env0) c.axis l) ∧
      (∀ i, 2 ≤ i → i ≤ n_steps →
        (fcn_run c n_steps (fcn_init c env0 w_init t_init)).envelope_axis i =
          fun l => (fcn_steps c (i - 1) (fcn_init c env0 w_init t_init)).envelope c.axis l)) := by
  constructor
  · intro c n_steps env0 w_init t_init i hi
    rw [adi_run_eq_steps]
    rcases Nat.eq_zero_or_pos i with hi0 | hi1
    · subst hi0
      rw [(adi_trace_rows c (adi_init c env0 w_init t_init) n_steps).1]
      show Function.update t_init 0 (fun l => env0 c.axis l) 0 = _
      rw [Function.update_same]
      rfl
    · exact (adi_trace_rows c (adi_init c env0 w_init t_init) n_steps).2 i hi1 hi
  · intro c n_steps env0 w_init t_init
    refine ⟨?_, ?_, ?_⟩
    · rw [fcn_run_eq_steps]
      rw [(fcn_trace_rows c (fcn_init c env0 w_init t_init) (n_steps - 1)).1]
      show Function.update t_init 0 (fun l => env0 c.axis l) 0 = _
      rw [Function.update_same]
    · intro hn
      rw [fcn_run_eq_steps]
      exact (fcn_trace_rows c (fcn_init c env0 w_init t_init) (n_steps - 1)).2.1 (by omega)
    · intro i h1 h2
      rw [fcn_run_eq_steps]
      exact (fcn_trace_rows c (fcn_init c env0 w_init t_init) (n_steps - 1)).2.2 i h1 (by omega)

theorem claim_C1_witness :
    1 ≤ 1 ∧ 2 ≤ 2 ∧
    ((adi_run adi_cfg1 1
        (adi_init adi_cfg1 (fun _ _ => 1) (fun _ _ => 0) (fun _ _ => 0))).envelope_axis 1 =
      fun l => (adi_steps adi_cfg1 1
        (adi_init adi_cfg1 (fun _ _ => 1) (fun _ _ => 0) (fun _ _ => 0))).envelope
          adi_cfg1.axis l) ∧
    ((fcn_run fcn_cfg1 2
        (fcn_init fcn_cfg1 (fun _ _ => 1) (fun _ _ => 0) (fun _ _ => 0))).envelope_axis 2 =
      fun l => (fcn_steps fcn_cfg1 (2 - 1)
        (fcn_init fcn_cfg1 (fun _ _ => 1) (fun _ _ => 0) (fun _ _ => 0))).envelope
          fcn_cfg1.axis l) :=
  ⟨le_refl 1, le_refl 2,
    claim_C1.1 adi_cfg1 1 (fun _ _ => 1) (fun _ _ => 0) (fun _ _ => 0) 1 (le_refl 1),
    (claim_C1.2 fcn_cfg1 2 (fun _ _ => 1) (fun _ _ => 0) (fun _ _ => 0)).2.2 2
      (le_refl 2) (le_refl 2)⟩

theorem fcn_b_cfg1 (env : Fin fcn_cfg1.nr → Fin fcn_cfg1.nt → ℂ) (i : Fin fcn_cfg1.nr) :
    fcn_b fcn_cfg1 env i = env i := by
  have hco : ∀ k, fourier_coeff fcn_cfg1 k = 1 := by
    intro k
    unfold fourier_coeff
    simp [fcn_cfg1]
  show fcn_spectral_line fcn_cfg1.nt (fourier_coeff fcn_cfg1) (env i) = env i
  unfold fcn_spectral_line
  have hfun : (fun k => fourier_coeff fcn_cfg1 k * dft fcn_cfg1.nt (env i) k) =
      dft fcn_cfg1.nt (env i) := by
    funext k
    rw [hco k, one_mul]
  rw [hfun]
  exact idft_dft fcn_cfg1.nt (by norm_num [fcn_cfg1]) (env i)

/-- Claim C1, counterexample: in the spectral variant with two configured
steps, trace row 1 holds the (rescaled) spectral intermediate slice of step 0
— value 1 on the axis for the all-ones field with zero dispersion — while the
field after one completed propagation step has value 0 on the axis, so row 1
is not the axis slice of the field after 1 completed step. -/
theorem claim_C1_counterexample :
    (fcn_run fcn_cfg1 2
        (fcn_init fcn_cfg1 (fun _ _ => 1) (fun _ _ => 0) (fun _ _ => 0))).envelope_axis 1
        ⟨0, by decide⟩ = 1 ∧
    (fcn_steps fcn_cfg1 1
        (fcn_init fcn_cfg1 (fun _ _ => 1) (fun _ _ => 0) (fun _ _ => 0))).envelope
        fcn_cfg1.axis ⟨0, by decide⟩ = 0 ∧
    (fcn_run fcn_cfg1 2
        (fcn_init fcn_cfg1 (fun _ _ => 1) (fun _ _ => 0) (fun _ _ => 0))).envelope_axis 1 ≠
      fun l => (fcn_steps fcn_cfg1 1
        (fcn_init fcn_cfg1 (fun _ _ => 1) (fun _ _ => 0) (fun _ _ => 0))).envelope
        fcn_cfg1.axis l := by
  have h1 : (fcn_run fcn_cfg1 2
      (fcn_init fcn_cfg1 (fun _ _ => 1) (fun _ _ => 0) (fun _ _ => 0))).envelope_axis 1
      ⟨0, by decide⟩ = 1 := by
    rw [fcn_run_eq_steps]
    have hr := (fcn_trace_rows fcn_cfg1
      (fcn_init fcn_cfg1 (fun _ _ => 1) (fun _ _ => 0) (fun _ _ => 0)) (2 - 1)).2.1
      (by omega)
    rw [hr]
    have hb := congrFun (fcn_b_cfg1 (fun _ _ => 1) fcn_cfg1.axis) ⟨0, by decide⟩
    show ((boot_G : ℚ) : ℂ) * fcn_b fcn_cfg1 (fun _ _ => 1) fcn_cfg1.axis ⟨0, by decide⟩ = 1
    rw [hb]
    simp [boot_G]
  have h2 : (fcn_steps fcn_cfg1 1
      (fcn_init fcn_cfg1 (fun _ _ => 1) (fun _ _ => 0) (fun _ _ => 0))).envelope
      fcn_cfg1.axis ⟨0, by decide⟩ = 0 :=
    fcn_store0_cfg1_zero _ _ _
  refine ⟨h1, h2, fun h => ?_⟩
  have := congrFun h ⟨0, by decide⟩
  rw [h1, h2] at this
  exact one_ne_zero this
